import Mathlib

/-!
Verification of the core of `ai-customer-insight` (guards.py + llm.py) via a
shallow embedding: strings are `String`/`List Char`, Python exceptions are an
explicit error type, the network tiers are parameterised by their outcomes,
and `time.sleep` is recorded as a list of requested delays.
-/

set_option maxRecDepth 20000

/-! ## Python exception model for llm.py -/

/-- A Python exception as observed by `generate_ai_insights.try_all`
(src/core/llm.py): either a `TypeError` (with its `str(e)` description) or
any other exception (network, auth, rate limit, server error, ValueError
from extraction, ...) with its description. -/
inductive PyExc where
  | typeError (msg : String)
  | otherError (msg : String)
deriving DecidableEq, Repr

/-- Substring test on character lists (Python's `needle in haystack`). -/
def containsSub (needle : List Char) : List Char → Bool
  | [] => needle.isEmpty
  | c :: rest => needle.isPrefixOf (c :: rest) || containsSub needle rest

/-- The fallback trigger of `try_all` (src/core/llm.py lines 194-197 and
205-207): the exception is a `TypeError` and `"response_format"` occurs in
`str(e)`. -/
def capMismatch : PyExc → Bool
  | .typeError msg => containsSub "response_format".data msg.data
  | .otherError _ => false

/-- Outcome of one provider-tier call: the raw text returned, or the
exception it raised. -/
inductive CallOutcome where
  | ok (text : String)
  | exc (e : PyExc)
deriving DecidableEq, Repr

/-- `generate_ai_insights.try_all` (src/core/llm.py lines 190-212): try the
three tiers in order; a tier's `TypeError` mentioning `response_format`
falls through to the next tier, every other exception propagates.  The
three arguments are the outcomes the three tier calls would have. -/
def try_all (r1 r2 r3 : CallOutcome) : Except PyExc String :=
  match r1 with
  | .ok t => .ok t
  | .exc e =>
    if capMismatch e then
      match r2 with
      | .ok t => .ok t
      | .exc e2 =>
        if capMismatch e2 then
          match r3 with
          | .ok t => .ok t
          | .exc e3 => .error e3
        else .error e2
    else .error e

/-- Recursion of `_with_retries` (src/core/llm.py lines 58-66).
`f i` is the outcome of the `i`-th call of `fn`; the result records the
final outcome (`error none` is Python's `raise None` when `tries = 0`),
the list of delays passed to `time.sleep`, and how many times `fn` ran. -/
def retryRun (f : Nat → Except PyExc String) (backoff : ℚ) :
    Nat → Nat → Option PyExc → (Except (Option PyExc) String) × List ℚ × Nat
  | 0, _, last => (.error last, [], 0)
  | fuel + 1, i, _ =>
    match f i with
    | .ok a => (.ok a, [], 1)
    | .error e =>
      let r := retryRun f backoff fuel (i + 1) (some e)
      (r.1, backoff * 2 ^ i :: r.2.1, r.2.2 + 1)

/-- `_with_retries(fn, tries, backoff)` (src/core/llm.py lines 58-66): runs
`fn` up to `tries` times; after every failed call it sleeps
`backoff * 2 ^ i`, and after exhausting the loop re-raises the last
exception. -/
def with_retries (f : Nat → Except PyExc String) (tries : Nat) (backoff : ℚ) :
    (Except (Option PyExc) String) × List ℚ × Nat :=
  retryRun f backoff tries 0 none

/-! ### C1: three-tier order and capability-mismatch fallthrough -/

theorem try_all_ok (t : String) (r2 r3 : CallOutcome) :
    try_all (.ok t) r2 r3 = .ok t := rfl

theorem try_all_err1 (e : PyExc) (r2 r3 : CallOutcome)
    (h : capMismatch e = false) : try_all (.exc e) r2 r3 = .error e := by
  simp [try_all, h]

theorem try_all_cap1_ok2 (e : PyExc) (t : String) (r3 : CallOutcome)
    (h : capMismatch e = true) : try_all (.exc e) (.ok t) r3 = .ok t := by
  simp [try_all, h]

/-- C1: within one attempt the tiers run in order 1→2→3; a failure falls
through exactly when it is a capability mismatch (a TypeError whose text
mentions `response_format`), any other failure propagates at once with the
later tiers untouched; and when tier 1 capability-mismatches while tier 2
succeeds, the unit returns tier 2's text with a single call of the unit,
no sleep and no retry. -/
theorem C1_tier_order_and_fallthrough :
    (∀ (t : String) (r2 r3 : CallOutcome), try_all (.ok t) r2 r3 = .ok t) ∧
    (∀ (e : PyExc) (r2 r3 : CallOutcome), capMismatch e = false →
      try_all (.exc e) r2 r3 = .error e) ∧
    (∀ (e : PyExc) (t : String) (r3 : CallOutcome), capMismatch e = true →
      try_all (.exc e) (.ok t) r3 = .ok t) ∧
    (∀ (e e2 : PyExc) (r3 : CallOutcome), capMismatch e = true →
      capMismatch e2 = false → try_all (.exc e) (.exc e2) r3 = .error e2) ∧
    (∀ (e e2 : PyExc) (t3 : String), capMismatch e = true →
      capMismatch e2 = true → try_all (.exc e) (.exc e2) (.ok t3) = .ok t3) ∧
    (∀ (e e2 e3 : PyExc), capMismatch e = true → capMismatch e2 = true →
      try_all (.exc e) (.exc e2) (.exc e3) = .error e3) ∧
    (∀ (e : PyExc) (t : String) (r3 : CallOutcome) (n : Nat) (b : ℚ),
      capMismatch e = true →
      with_retries (fun _ => try_all (.exc e) (.ok t) r3) (n + 1) b =
        (.ok t, [], 1)) := by
  refine ⟨fun t r2 r3 => rfl, ?_, ?_, ?_, ?_, ?_, ?_⟩
  · intro e r2 r3 h; simp [try_all, h]
  · intro e t r3 h; simp [try_all, h]
  · intro e e2 r3 h h2; simp [try_all, h, h2]
  · intro e e2 t3 h h2; simp [try_all, h, h2]
  · intro e e2 e3 h h2; simp [try_all, h, h2]
  · intro e t r3 n b h
    simp [with_retries, retryRun, try_all, h]

/-- Witness for C1 at concrete inputs. -/
theorem C1_tier_order_and_fallthrough_witness :
    try_all (.exc (.typeError "unexpected keyword argument response_format"))
        (.ok "tier2") (.ok "tier3") = .ok "tier2" ∧
    try_all (.exc (.otherError "connection reset")) (.ok "tier2") (.ok "tier3") =
      .error (.otherError "connection reset") ∧
    with_retries
        (fun _ => try_all
          (.exc (.typeError "unexpected keyword argument response_format"))
          (.ok "tier2") (.ok "tier3")) 3 (3 / 5) =
      (.ok "tier2", [], 1) := by
  obtain ⟨h1, h2, h3, _h4, _h5, _h6, h7⟩ := C1_tier_order_and_fallthrough
  refine ⟨?_, ?_, ?_⟩
  · exact h3 _ _ _ (by decide)
  · exact h2 _ _ _ (by decide)
  · exact h7 (.typeError "unexpected keyword argument response_format")
      "tier2" (.ok "tier3") 2 (3 / 5) (by decide)

/-! ### C2: retry count, backoff schedule, re-raise -/

theorem retryRun_step_err (f : Nat → Except PyExc String) (b : ℚ)
    (fuel i : Nat) (last : Option PyExc) (e : PyExc) (hf : f i = .error e) :
    retryRun f b (fuel + 1) i last =
      ((retryRun f b fuel (i + 1) (some e)).1,
       b * 2 ^ i :: (retryRun f b fuel (i + 1) (some e)).2.1,
       (retryRun f b fuel (i + 1) (some e)).2.2 + 1) := by
  simp [retryRun, hf]

theorem retryRun_step_ok (f : Nat → Except PyExc String) (b : ℚ)
    (fuel i : Nat) (last : Option PyExc) (a : String) (hf : f i = .ok a) :
    retryRun f b (fuel + 1) i last = (.ok a, [], 1) := by
  simp [retryRun, hf]

theorem retryRun_all_fail (f : Nat → Except PyExc String) (b : ℚ)
    (err : Nat → PyExc) :
    ∀ (fuel i : Nat) (last : Option PyExc),
      (∀ j, j < fuel → f (i + j) = .error (err (i + j))) →
      retryRun f b fuel i last =
        (.error (if fuel = 0 then last else some (err (i + fuel - 1))),
         (List.range' i fuel).map (fun j => b * 2 ^ j), fuel) := by
  intro fuel
  induction fuel with
  | zero => intro i last _; simp [retryRun]
  | succ n ih =>
    intro i last hf
    have h0 : f i = .error (err i) := by
      have := hf 0 (Nat.succ_pos n); simpa using this
    have hrec := ih (i + 1) (some (err i)) (fun j hj => by
      have := hf (j + 1) (by omega)
      simpa [Nat.add_assoc, Nat.add_comm 1 j] using this)
    rw [retryRun_step_err f b n i last (err i) h0, hrec,
      List.range'_succ, List.map_cons]
    rcases Nat.eq_zero_or_pos n with h | h
    · subst h; simp
    · have h1 : i + 1 + n - 1 = i + (n + 1) - 1 := by omega
      simp only [if_neg (by omega : ¬ n = 0),
        if_neg (by omega : ¬ n + 1 = 0), h1]

theorem retryRun_succeeds (f : Nat → Except PyExc String) (b : ℚ)
    (a : String) :
    ∀ (k fuel i : Nat) (last : Option PyExc),
      k < fuel →
      (∀ j, j < k → ∃ e, f (i + j) = .error e) →
      f (i + k) = .ok a →
      retryRun f b fuel i last =
        (.ok a, (List.range' i k).map (fun j => b * 2 ^ j), k + 1) := by
  intro k
  induction k with
  | zero =>
    intro fuel i last hk _ hok
    obtain ⟨m, rfl⟩ := Nat.exists_eq_add_of_lt hk
    simp only [Nat.add_zero] at hok
    rw [retryRun_step_ok f b (0 + m) i last a hok]
    simp
  | succ n ih =>
    intro fuel i last hk hfail hok
    obtain ⟨m, rfl⟩ := Nat.exists_eq_add_of_lt hk
    obtain ⟨e0, he0⟩ := hfail 0 (Nat.succ_pos n)
    simp only [Nat.add_zero] at he0
    have hrec := ih (n + m + 1) (i + 1) (some e0) (by omega)
      (fun j hj => by
        obtain ⟨e, he⟩ := hfail (j + 1) (by omega)
        exact ⟨e, by simpa [Nat.add_assoc, Nat.add_comm 1 j] using he⟩)
      (by simpa [Nat.add_assoc, Nat.add_comm 1 n] using hok)
    have hfuel : n + 1 + m + 1 = (n + m + 1) + 1 := by omega
    rw [hfuel, retryRun_step_err f b (n + m + 1) i last e0 he0, hrec,
      List.range'_succ, List.map_cons]

/-- The claim C2 as literally stated is false: after the final failed
attempt the code still sleeps (`time.sleep` runs inside the `except` block
of every loop iteration, including the last), so a unit failing on all 3
attempts with base delay 3/5 produces the sleep schedule
[3/5, 6/5, 12/5] — three delays, not the two the claim allows. -/
theorem C2_counterexample :
    (with_retries (fun _ => .error (.otherError "boom")) 3 (3 / 5)).2.1 =
      [3 / 5, 6 / 5, 12 / 5] ∧
    (with_retries (fun _ => .error (.otherError "boom")) 3 (3 / 5)).2.1 ≠
      [3 / 5, 6 / 5] := by
  constructor
  · show (retryRun _ _ 3 0 none).2.1 = _
    norm_num [retryRun, with_retries]
  · show (retryRun _ _ 3 0 none).2.1 ≠ _
    norm_num [retryRun, with_retries]

/-- C2 (amended): the wrapper re-runs the unit up to exactly `tries`
attempts; a delay of `backoff * 2 ^ i` follows every failed attempt `i`,
including the final one, after which the last failure is re-raised; if
some attempt succeeds its result is returned at once, with no further
attempts and no delay after the successful attempt. -/
theorem C2_retry_backoff (f : Nat → Except PyExc String) (b : ℚ) (n : Nat)
    (err : Nat → PyExc) :
    (0 < n → (∀ j, j < n → f j = .error (err j)) →
      with_retries f n b =
        (.error (some (err (n - 1))),
         (List.range n).map (fun j => b * 2 ^ j), n)) ∧
    (∀ (k : Nat) (a : String), k < n →
      (∀ j, j < k → ∃ e, f j = .error e) → f k = .ok a →
      with_retries f n b =
        (.ok a, (List.range k).map (fun j => b * 2 ^ j), k + 1)) := by
  constructor
  · intro hn hf
    have := retryRun_all_fail f b err n 0 none (fun j hj => by
      simpa using hf j hj)
    rw [with_retries, this]
    have hn0 : ¬ n = 0 := by omega
    simp [hn0, List.range_eq_range']
  · intro k a hk hfail hok
    have := retryRun_succeeds f b a k n 0 none hk
      (fun j hj => by simpa using hfail j hj) (by simpa using hok)
    rw [with_retries, this, List.range_eq_range']

/-- Witness for C2 (amended) at concrete inputs: a unit failing on all
three attempts, and a unit succeeding on the second attempt. -/
theorem C2_retry_backoff_witness :
    with_retries (fun _ => .error (.otherError "boom")) 3 (3 / 5) =
      (.error (some (.otherError "boom")),
       [3 / 5 * 2 ^ 0, 3 / 5 * 2 ^ 1, 3 / 5 * 2 ^ 2], 3) ∧
    with_retries
        (fun i => if i = 0 then .error (.otherError "net") else .ok "good")
        3 (3 / 5) =
      (.ok "good", [3 / 5 * 2 ^ 0], 2) := by
  constructor
  · have h := (C2_retry_backoff (fun _ => .error (.otherError "boom")) (3 / 5) 3
      (fun _ => .otherError "boom")).1 (by decide) (fun j _ => rfl)
    rw [h]
    rfl
  · have h := (C2_retry_backoff
      (fun i => if i = 0 then .error (.otherError "net") else .ok "good")
      (3 / 5) 3 (fun _ => .otherError "net")).2 1 "good" (by decide)
      (fun j hj => ⟨.otherError "net", by interval_cases j; rfl⟩) (by rfl)
    rw [h]
    rfl

/-! ## guards.py: character-level model

Regular-expression constructs are specialised to the fixed patterns of
`guards.py`.  `\w` and case folding follow the ASCII reading of Python's
`re` (`(?i)` folds `A-Z`; `\w` is `[A-Za-z0-9_]`). -/

/-- ASCII lower-casing on code points (the effect of `(?i)`). -/
def lcn (n : Nat) : Nat := if 65 ≤ n ∧ n ≤ 90 then n + 32 else n

/-- Case-insensitive character comparison. -/
def ciEq (a b : Char) : Bool := lcn a.toNat == lcn b.toNat

/-- `\w` (word character): `[A-Za-z0-9_]`. -/
def isWordChar (c : Char) : Bool :=
  (48 ≤ c.toNat && c.toNat ≤ 57) || (65 ≤ c.toNat && c.toNat ≤ 90) ||
    (97 ≤ c.toNat && c.toNat ≤ 122) || c.toNat == 95

/-- `\b` before a word character, given the preceding character
(`none` = start of text). -/
def boundaryL : Option Char → Bool
  | none => true
  | some c => !isWordChar c

/-- Case-insensitive "the token is a prefix of the text". -/
def ciStarts : List Char → List Char → Bool
  | [], _ => true
  | _ :: _, [] => false
  | a :: as, b :: bs => ciEq b a && ciStarts as bs

def headIsWord : List Char → Bool
  | [] => false
  | c :: _ => isWordChar c

/-- `\b` after a non-word final token character: the next character must be
a word character (so end-of-text fails). -/
def endBoundary : List Char → Bool
  | [] => true
  | c :: _ => !isWordChar c

/-- A match of `(?i)\bTOK\b` at the head of `s` for a token TOK that starts
with a word character and ends with a non-word one (such as `system:`):
the previous character is non-word (or absent) and the character after the
token is a word character. -/
def roleMatchAt (tok : List Char) (prev : Option Char) (s : List Char) : Bool :=
  boundaryL prev && ciStarts tok s && headIsWord (s.drop tok.length)

/-- A match of `(?i)\bTOK\b` at the head of `s` for a token TOK that both
starts and ends with word characters (such as `override`). -/
def wordTokAt (tok : List Char) (prev : Option Char) (s : List Char) : Bool :=
  boundaryL prev && ciStarts tok s && endBoundary (s.drop tok.length)

/-- Scan of `re.sub(r"(?i)\bTOK\b", repl, ·)` for a role token
`TOK = t0 :: ts` (ending in `:`): left-to-right, non-overlapping, scanning
resumes after each match, boundaries evaluated on the original text
(src/core/guards.py lines 41-43).  `skip > 0` means the scanner is still
moving over the `skip` remaining characters of a match it has already
replaced (so they are dropped and become the boundary context). -/
def subTokRun (t0 : Char) (ts repl : List Char) :
    Nat → Option Char → List Char → List Char
  | _ + 1, _, [] => []
  | skip + 1, _, c :: rest => subTokRun t0 ts repl skip (some c) rest
  | 0, _, [] => []
  | 0, prev, c :: rest =>
    if roleMatchAt (t0 :: ts) prev (c :: rest) then
      repl ++ subTokRun t0 ts repl ts.length (some c) rest
    else
      c :: subTokRun t0 ts repl 0 (some c) rest

/-- `re.sub(r"(?i)\bTOK\b", repl, ·)` for the role token `t0 :: ts`. -/
def subToken (t0 : Char) (ts repl : List Char)
    (prev : Option Char) (s : List Char) : List Char :=
  subTokRun t0 ts repl 0 prev s

/-- `re.search(r"(?i)\bTOK\b", ·) is not None` for a role token
`TOK = t0 :: ts`. -/
def searchToken (t0 : Char) (ts : List Char) : Option Char → List Char → Bool
  | _, [] => false
  | prev, c :: rest =>
    roleMatchAt (t0 :: ts) prev (c :: rest) || searchToken t0 ts (some c) rest

/-- `re.search(r"(?i)\bTOK\b", ·) is not None` for a word-ended token. -/
def searchWordTok (tok : List Char) : Option Char → List Char → Bool
  | _, [] => false
  | prev, c :: rest =>
    wordTokAt tok prev (c :: rest) || searchWordTok tok (some c) rest

/-- Scan for a `\bTOK\b` (word-ended) match reachable through a gap of
non-newline characters (the `.*` part of `\bA\b.*\bB\b`). -/
def scanSecond (tok : List Char) : Option Char → List Char → Bool
  | _, [] => false
  | prev, c :: rest =>
    wordTokAt tok prev (c :: rest) || (c != '\n' && scanSecond tok (some c) rest)

/-- `re.search` of `(?i)\bA\b.*\bB\b` for word-ended tokens A, B. -/
def searchTwoTok (tokA tokB : List Char) : Option Char → List Char → Bool
  | _, [] => false
  | prev, c :: rest =>
    (wordTokAt tokA prev (c :: rest) &&
      scanSecond tokB (some (((c :: rest).take tokA.length).getLastD c))
        ((c :: rest).drop tokA.length)) ||
    searchTwoTok tokA tokB (some c) rest

/-- `re.search` of `(?i)\buser:\b.*\bB\b`: a role-token match followed,
through a non-newline gap, by a word-ended token B. -/
def searchRoleThenWord (t0 : Char) (ts tokB : List Char) :
    Option Char → List Char → Bool
  | _, [] => false
  | prev, c :: rest =>
    (roleMatchAt (t0 :: ts) prev (c :: rest) &&
      scanSecond tokB (some (((c :: rest).take (ts.length + 1)).getLastD c))
        ((c :: rest).drop (ts.length + 1))) ||
    searchRoleThenWord t0 ts tokB (some c) rest

/-- Scan through a non-newline gap for a case-insensitive occurrence of
`tok` (no boundaries), then run the continuation on the remainder. -/
def scanTokThen (tok : List Char) (k : List Char → Bool) : List Char → Bool
  | [] => false
  | c :: rest =>
    (ciStarts tok (c :: rest) && k ((c :: rest).drop tok.length)) ||
    (c != '\n' && scanTokThen tok k rest)

/-- `re.search` of `(?i)\b<<.*system.*>>`: `\b` before `<` requires the
preceding character to be a word character. -/
def searchAngle : Option Char → List Char → Bool
  | _, [] => false
  | prev, c :: rest =>
    ((match prev with | some p => isWordChar p | none => false) &&
      ciStarts ['<', '<'] (c :: rest) &&
      scanTokThen ['s', 'y', 's', 't', 'e', 'm']
        (scanTokThen ['>', '>'] (fun _ => true)) ((c :: rest).drop 2)) ||
    searchAngle (some c) rest

/-! ## guards.py: the sanitizer -/

/-- `CONTROL_CHARS` (src/core/guards.py line 29): `[\x00-\x08\x0B-\x1F\x7F]`. -/
def isCtrlChar (c : Char) : Bool :=
  (c.toNat ≤ 8) || (11 ≤ c.toNat && c.toNat ≤ 31) || c.toNat == 127

/-- `_strip_control_chars` (src/core/guards.py lines 31-32). -/
def strip_control_chars (s : String) : String :=
  ⟨s.data.filter (fun c => !isCtrlChar c)⟩

def MAX_SAMPLES : Nat := 200
def MAX_CHARS_PER_SAMPLE : Nat := 800
def TRUNC_MARKER : String := " …[truncated]"

/-- `_truncate` (src/core/guards.py lines 34-37). -/
def truncate (text : String) (limit : Nat) : String :=
  if text.length ≤ limit then text else ⟨text.data.take limit⟩ ++ TRUNC_MARKER

def sysH : Char := 's'
def sysT : List Char := ['y', 's', 't', 'e', 'm', ':']
def asstH : Char := 'a'
def asstT : List Char := ['s', 's', 'i', 's', 't', 'a', 'n', 't', ':']
def userH : Char := 'u'
def userT : List Char := ['s', 'e', 'r', ':']
def markSystem : List Char := "[role-redacted:system]".data
def markAssistant : List Char := "[role-redacted:assistant]".data
def markUser : List Char := "[role-redacted:user]".data

/-- `_neutralize_injection_markers` (src/core/guards.py lines 39-44): the
three `re.sub` calls in source order. -/
def neutralize_injection_markers (text : String) : String :=
  ⟨subToken userH userT markUser none
    (subToken asstH asstT markAssistant none
      (subToken sysH sysT markSystem none text.data))⟩

/-- `SUSPECT_PATTERNS` (src/core/guards.py lines 19-27): pattern source
text paired with its match test. -/
def SUSPECT_PATTERNS : List (String × (String → Bool)) :=
  [("(?i)\\bignore all instructions\\b",
      fun s => searchWordTok "ignore all instructions".data none s.data),
   ("(?i)\\boverride\\b.*\\binstructions\\b",
      fun s => searchTwoTok "override".data "instructions".data none s.data),
   ("(?i)\\bdisregard\\b.*\\brules\\b",
      fun s => searchTwoTok "disregard".data "rules".data none s.data),
   ("(?i)\\bsystem:\\b", fun s => searchToken sysH sysT none s.data),
   ("(?i)\\bassistant:\\b", fun s => searchToken asstH asstT none s.data),
   ("(?i)\\buser:\\b.*\\bsystem\\b",
      fun s => searchRoleThenWord userH userT "system".data none s.data),
   ("(?i)\\b<<.*system.*>>", fun s => searchAngle none s.data)]

/-- `_detect_suspicious` (src/core/guards.py lines 46-51). -/
def detect_suspicious (s : String) : List String :=
  (SUSPECT_PATTERNS.filter (fun pr => pr.2 s)).map
    (fun pr => "Suspicious pattern matched: /" ++ pr.1 ++ "/")

/-- The per-sample transformation of `sanitize_samples`
(src/core/guards.py lines 68-71): control-char strip, then truncation,
then role-marker neutralization. -/
def sanitizeOne (s : String) : String :=
  neutralize_injection_markers (truncate (strip_control_chars s) MAX_CHARS_PER_SAMPLE)

/-- The loop body of `sanitize_samples` (src/core/guards.py lines 67-77):
clean samples in order, suspicious-pattern warnings of the *original*
sample text appended per sample. -/
def sanitizeLoop : List String → List String × List String
  | [] => ([], [])
  | s :: rest =>
    let r := sanitizeLoop rest
    (sanitizeOne s :: r.1, detect_suspicious s ++ r.2)

/-- `sanitize_samples` (src/core/guards.py lines 53-79). -/
def sanitize_samples (samples : List String) : List String × List String :=
  let capWarn : List String :=
    if MAX_SAMPLES < samples.length then
      ["Sample count capped: " ++ toString samples.length ++ " -> " ++
        toString MAX_SAMPLES]
    else []
  let r := sanitizeLoop (samples.take MAX_SAMPLES)
  (r.1, capWarn ++ r.2)


/-! ## Occurrence infrastructure for `re.sub`/`re.search` proofs -/

/-- The character just before a position: the last character of `pre`,
falling back to the outer context `prev` when `pre` is empty. -/
def ctxLast (prev : Option Char) (pre : List Char) : Option Char :=
  match pre.getLast? with
  | some c => some c
  | none => prev

theorem ctxLast_nil (prev : Option Char) : ctxLast prev [] = prev := rfl

theorem ctxLast_cons (prev : Option Char) (c : Char) (l : List Char) :
    ctxLast prev (c :: l) = ctxLast (some c) l := by
  cases l with
  | nil => rfl
  | cons b l' =>
    rcases hgl : (b :: l').getLast? with _ | x
    · exact absurd (List.getLast?_eq_none_iff.mp hgl) (List.cons_ne_nil b l')
    · simp [ctxLast, List.getLast?_cons_cons, hgl]

theorem ctxLast_some (d : Char) (l : List Char) :
    ctxLast (some d) l = some (l.getLastD d) := by
  induction l generalizing d with
  | nil => rfl
  | cons a l' ih => rw [ctxLast_cons, ih, List.getLastD_cons]

theorem ctxLast_append (prev : Option Char) (a b : List Char) :
    ctxLast prev (a ++ b) = ctxLast (ctxLast prev a) b := by
  induction a generalizing prev with
  | nil => rfl
  | cons x a ih => rw [List.cons_append, ctxLast_cons, ctxLast_cons, ih]

/-- Pointwise case-insensitive equality of equal-length texts. -/
def ciEqL : List Char → List Char → Bool
  | [], [] => true
  | a :: as, b :: bs => ciEq a b && ciEqL as bs
  | _, _ => false

theorem ciEqL_length : ∀ {xs ys : List Char}, ciEqL xs ys = true →
    xs.length = ys.length := by
  intro xs
  induction xs with
  | nil => intro ys h; cases ys with
    | nil => rfl
    | cons b bs => simp [ciEqL] at h
  | cons a as ih => intro ys h; cases ys with
    | nil => simp [ciEqL] at h
    | cons b bs =>
      simp only [ciEqL, Bool.and_eq_true] at h
      simp [ih h.2]

theorem ciEqL_mem : ∀ {xs ys : List Char} {a : Char}, ciEqL xs ys = true →
    a ∈ xs → ∃ b ∈ ys, ciEq a b = true := by
  intro xs
  induction xs with
  | nil => intro ys a _ ha; simp at ha
  | cons x xs ih => intro ys a h ha; cases ys with
    | nil => simp [ciEqL] at h
    | cons y ys =>
      simp only [ciEqL, Bool.and_eq_true] at h
      rcases List.mem_cons.mp ha with rfl | ha'
      · exact ⟨y, List.mem_cons_self _ _, h.1⟩
      · obtain ⟨b, hb, hci⟩ := ih h.2 ha'
        exact ⟨b, List.mem_cons_of_mem _ hb, hci⟩

theorem ciEqL_getLastD : ∀ {xs ys : List Char} {a b : Char} (d d' : Char),
    ciEqL (a :: xs) (b :: ys) = true →
    ciEq ((a :: xs).getLastD d) ((b :: ys).getLastD d') = true := by
  intro xs
  induction xs with
  | nil => intro ys a b d d' h; cases ys with
    | nil => simp only [ciEqL, Bool.and_eq_true] at h; simpa using h.1
    | cons y ys => simp [ciEqL] at h
  | cons x xs ih => intro ys a b d d' h; cases ys with
    | nil => simp [ciEqL] at h
    | cons y ys =>
      simp only [ciEqL, Bool.and_eq_true] at h
      have := ih d d' (by simp only [ciEqL, Bool.and_eq_true]; exact h.2)
      simpa [List.getLastD_cons] using this

theorem ciStarts_iff {tok s : List Char} : ciStarts tok s = true ↔
    ∃ mid rest, s = mid ++ rest ∧ ciEqL mid tok = true := by
  constructor
  · induction tok generalizing s with
    | nil => intro _; exact ⟨[], s, rfl, rfl⟩
    | cons a as ih =>
      intro h
      cases s with
      | nil => simp [ciStarts] at h
      | cons b bs =>
        simp only [ciStarts, Bool.and_eq_true] at h
        obtain ⟨mid, rest, rfl, hci⟩ := ih h.2
        exact ⟨b :: mid, rest, rfl, by simp [ciEqL, h.1, hci]⟩
  · rintro ⟨mid, rest, rfl, hci⟩
    induction tok generalizing mid with
    | nil => rfl
    | cons a as ih =>
      cases mid with
      | nil => simp [ciEqL] at hci
      | cons b bs =>
        simp only [ciEqL, Bool.and_eq_true] at hci
        simpa [ciStarts, hci.1] using ih bs hci.2

theorem ciStarts_take {tok s : List Char} (h : ciStarts tok s = true) :
    ciEqL (s.take tok.length) tok = true := by
  obtain ⟨mid, rest, rfl, hci⟩ := ciStarts_iff.mp h
  have hl : mid.length = tok.length := ciEqL_length hci
  rw [← hl, List.take_left]
  exact hci

theorem headIsWord_append {l l2 : List Char} (h : l ≠ []) :
    headIsWord (l ++ l2) = headIsWord l := by
  cases l with
  | nil => exact absurd rfl h
  | cons c l' => rfl

theorem append_eq_split : ∀ (a c b d : List Char), a ++ b = c ++ d →
    a.length ≤ c.length → ∃ e, c = a ++ e ∧ b = e ++ d := by
  intro a
  induction a with
  | nil => intro c b d h _; exact ⟨c, rfl, h⟩
  | cons x a ih =>
    intro c b d h hlen
    cases c with
    | nil => simp at hlen
    | cons y c' =>
      simp only [List.cons_append, List.cons.injEq] at h
      obtain ⟨rfl, h2⟩ := h
      obtain ⟨e, he1, he2⟩ := ih c' b d h2 (by simpa using hlen)
      exact ⟨e, by rw [List.cons_append, he1], he2⟩

theorem mem_getLastD (a : Char) (l : List Char) (d : Char) :
    (a :: l).getLastD d ∈ a :: l := by
  induction l generalizing a with
  | nil => simp
  | cons b l' ih =>
    rw [List.getLastD_cons]
    exact List.mem_cons_of_mem _ (ih b)

theorem roleMatchAt_iff {tok : List Char} {prev : Option Char} {s : List Char} :
    roleMatchAt tok prev s = true ↔
      ∃ mid post, s = mid ++ post ∧ ciEqL mid tok = true ∧
        boundaryL prev = true ∧ headIsWord post = true := by
  constructor
  · intro h
    simp only [roleMatchAt, Bool.and_eq_true] at h
    obtain ⟨⟨hb, hst⟩, hw⟩ := h
    refine ⟨s.take tok.length, s.drop tok.length, (List.take_append_drop _ s).symm,
      ciStarts_take hst, hb, hw⟩
  · rintro ⟨mid, post, rfl, hci, hb, hw⟩
    have hl : mid.length = tok.length := ciEqL_length hci
    simp only [roleMatchAt, Bool.and_eq_true]
    refine ⟨⟨hb, ciStarts_iff.mpr ⟨mid, post, rfl, hci⟩⟩, ?_⟩
    rw [← hl, List.drop_left]
    exact hw

theorem searchToken_iff {t0 : Char} {ts : List Char} :
    ∀ {prev : Option Char} {s : List Char},
      searchToken t0 ts prev s = true ↔
        ∃ pre mid post, s = pre ++ mid ++ post ∧ ciEqL mid (t0 :: ts) = true ∧
          boundaryL (ctxLast prev pre) = true ∧ headIsWord post = true := by
  intro prev s
  constructor
  · intro h
    induction s generalizing prev with
    | nil => simp [searchToken] at h
    | cons c rest ih =>
      simp only [searchToken, Bool.or_eq_true] at h
      rcases h with h | h
      · obtain ⟨mid, post, heq, hci, hb, hw⟩ := roleMatchAt_iff.mp h
        exact ⟨[], mid, post, by simpa using heq, hci, by simpa using hb, hw⟩
      · obtain ⟨pre, mid, post, heq, hci, hb, hw⟩ := ih h
        exact ⟨c :: pre, mid, post, by simp [heq], hci,
          by rwa [ctxLast_cons], hw⟩
  · rintro ⟨pre, mid, post, rfl, hci, hb, hw⟩
    induction pre generalizing prev with
    | nil =>
      have hmid : mid ≠ [] := by
        intro hm; rw [hm] at hci; simp [ciEqL] at hci
      cases mid with
      | nil => exact absurd rfl hmid
      | cons m0 m' =>
        simp only [List.nil_append, List.cons_append]
        simp only [searchToken, Bool.or_eq_true]
        left
        exact roleMatchAt_iff.mpr ⟨m0 :: m', post, by simp, hci,
          by simpa using hb, hw⟩
    | cons a pre' ih =>
      simp only [List.cons_append]
      simp only [searchToken, Bool.or_eq_true]
      right
      exact ih (by rwa [ctxLast_cons] at hb)

theorem searchToken_append_drop {t0 : Char} {ts : List Char}
    {prev : Option Char} {pre1 s2 : List Char}
    (h : searchToken t0 ts prev (pre1 ++ s2) = false) :
    searchToken t0 ts (ctxLast prev pre1) s2 = false := by
  by_contra hx
  rw [Bool.not_eq_false] at hx
  obtain ⟨pre, mid, post, rfl, hci, hb, hw⟩ := searchToken_iff.mp hx
  have : searchToken t0 ts prev (pre1 ++ (pre ++ mid ++ post)) = true := by
    refine searchToken_iff.mpr ⟨pre1 ++ pre, mid, post, by simp, hci, ?_, hw⟩
    rwa [ctxLast_append]
  rw [this] at h
  simp at h

theorem getLastD_indep (q : Char) (qs : List Char) (d d' : Char) :
    (q :: qs).getLastD d = (q :: qs).getLastD d' := by
  rw [List.getLastD_cons, List.getLastD_cons]

theorem getLastD_append_right (a : List Char) (q : Char) (qs : List Char)
    (d : Char) : (a ++ q :: qs).getLastD d = (q :: qs).getLastD d := by
  induction a generalizing d with
  | nil => rfl
  | cons x a ih =>
    rw [List.cons_append, List.getLastD_cons]
    rcases a with _ | ⟨y, a'⟩
    · rw [List.nil_append, getLastD_indep q qs x d]
    · rw [ih x, getLastD_indep q qs x d]

theorem subTokRun_skip (t0 : Char) (ts repl : List Char) :
    ∀ (k : Nat) (prev : Option Char) (s : List Char),
      subTokRun t0 ts repl k prev s =
        subTokRun t0 ts repl 0 (ctxLast prev (s.take k)) (s.drop k) := by
  intro k
  induction k with
  | zero => intro prev s; rfl
  | succ n ih =>
    intro prev s
    cases s with
    | nil => cases prev <;> rfl
    | cons c rest =>
      have h1 : subTokRun t0 ts repl (n + 1) prev (c :: rest) =
          subTokRun t0 ts repl n (some c) rest := rfl
      rw [h1, ih]
      rw [List.take_succ_cons, ctxLast_cons, List.drop_succ_cons]

theorem subToken_cons_pos {t0 : Char} {ts repl : List Char}
    {prev : Option Char} {c : Char} {rest : List Char}
    (h : roleMatchAt (t0 :: ts) prev (c :: rest) = true) :
    subToken t0 ts repl prev (c :: rest) =
      repl ++ subToken t0 ts repl (ctxLast (some c) (rest.take ts.length))
        (rest.drop ts.length) := by
  have h1 : subToken t0 ts repl prev (c :: rest) =
      if roleMatchAt (t0 :: ts) prev (c :: rest) then
        repl ++ subTokRun t0 ts repl ts.length (some c) rest
      else c :: subTokRun t0 ts repl 0 (some c) rest := rfl
  rw [h1, if_pos h, subTokRun_skip]
  rfl

theorem subToken_cons_neg {t0 : Char} {ts repl : List Char}
    {prev : Option Char} {c : Char} {rest : List Char}
    (h : roleMatchAt (t0 :: ts) prev (c :: rest) = false) :
    subToken t0 ts repl prev (c :: rest) =
      c :: subToken t0 ts repl (some c) rest := by
  have h1 : subToken t0 ts repl prev (c :: rest) =
      if roleMatchAt (t0 :: ts) prev (c :: rest) then
        repl ++ subTokRun t0 ts repl ts.length (some c) rest
      else c :: subTokRun t0 ts repl 0 (some c) rest := rfl
  rw [h1, if_neg (by rw [h]; exact Bool.false_ne_true)]
  rfl

/-- Structure of a `subToken` result: it agrees with the input up to the
first replacement, whose replacement text then heads the remainder. -/
theorem subToken_split (t0 : Char) (ts repl : List Char) :
    ∀ (prev : Option Char) (s : List Char),
      ∃ p r2, s = p ++ r2 ∧
        (subToken t0 ts repl prev s = p ∧ r2 = [] ∨
         ∃ z, subToken t0 ts repl prev s = p ++ (repl ++ z)) := by
  intro prev s
  induction s generalizing prev with
  | nil => exact ⟨[], [], rfl, Or.inl ⟨rfl, rfl⟩⟩
  | cons c rest ih =>
    by_cases h : roleMatchAt (t0 :: ts) prev (c :: rest) = true
    · exact ⟨[], c :: rest, rfl, Or.inr ⟨_, by rw [subToken_cons_pos h]; rfl⟩⟩
    · rw [Bool.not_eq_true] at h
      obtain ⟨p, r2, hsplit, hcase⟩ := ih (some c)
      refine ⟨c :: p, r2, by rw [List.cons_append, ← hsplit], ?_⟩
      rcases hcase with ⟨hout, hr2⟩ | ⟨z, hout⟩
      · exact Or.inl ⟨by rw [subToken_cons_neg h, hout], hr2⟩
      · exact Or.inr ⟨z, by rw [subToken_cons_neg h, hout]; simp⟩

/-- Core lemma: replacing a role token `b0 :: bs` (ending in a non-word
character) by a bracketed marker `r0 :: rs` leaves no boundary-valid
occurrence of the token `t0 :: ts` in the output — either because the
tokens coincide (every valid occurrence was replaced), or because the
input already had none (the marker cannot create one). -/
theorem subToken_no_occ (t0 b0 r0 : Char) (ts bs rs : List Char)
    (hBlast : ∀ x : Char, ciEq x (bs.getLastD b0) = true → isWordChar x = false)
    (hRheadW : isWordChar r0 = false)
    (hRheadT : ∀ b ∈ t0 :: ts, ciEq r0 b = false)
    (hRlastT : ∀ b ∈ t0 :: ts, ciEq (rs.getLastD r0) b = false)
    (hRinf : ∀ pre mid suf, r0 :: rs = pre ++ mid ++ suf →
      ciEqL mid (t0 :: ts) = true → False) :
    ∀ (n : Nat) (prev : Option Char) (s : List Char), s.length ≤ n →
      ((t0 = b0 ∧ ts = bs) ∨ searchToken t0 ts prev s = false) →
      searchToken t0 ts prev (subToken b0 bs (r0 :: rs) prev s) = false := by
  intro n
  induction n with
  | zero =>
    intro prev s hlen _
    have hs : s = [] := List.length_eq_zero.mp (Nat.le_zero.mp hlen)
    subst hs
    rfl
  | succ n ih =>
    intro prev s hlen hyp
    cases s with
    | nil => rfl
    | cons c rest =>
      have hlenr : rest.length ≤ n := by
        simp only [List.length_cons] at hlen; omega
      by_cases hm : roleMatchAt (b0 :: bs) prev (c :: rest) = true
      · -- a match of the replaced token at the head
        rw [subToken_cons_pos hm]
        have hyp' : (t0 = b0 ∧ ts = bs) ∨
            searchToken t0 ts (ctxLast (some c) (rest.take bs.length))
              (rest.drop bs.length) = false := by
          rcases hyp with h | h
          · exact Or.inl h
          · right
            have hsplit : c :: rest =
                (c :: rest.take bs.length) ++ rest.drop bs.length := by
              rw [List.cons_append, List.take_append_drop]
            rw [hsplit] at h
            have h2 := searchToken_append_drop h
            rwa [ctxLast_cons] at h2
        have hX := ih (ctxLast (some c) (rest.take bs.length))
          (rest.drop bs.length)
          (by rw [List.length_drop]; omega) hyp'
        have hmst : ciStarts (b0 :: bs) (c :: rest) = true := by
          simp only [roleMatchAt, Bool.and_eq_true] at hm
          exact hm.1.2
        have hciM : ciEqL (c :: rest.take bs.length) (b0 :: bs) = true := by
          have h2 := ciStarts_take hmst
          simpa [List.take_succ_cons] using h2
        have hprevEq : ctxLast (some c) (rest.take bs.length) =
            some ((rest.take bs.length).getLastD c) := ctxLast_some _ _
        have hlastM : ciEq ((rest.take bs.length).getLastD c)
            (bs.getLastD b0) = true := by
          have h2 := ciEqL_getLastD c b0 hciM
          rwa [List.getLastD_cons, List.getLastD_cons] at h2
        have hlastMW : isWordChar ((rest.take bs.length).getLastD c) = false :=
          hBlast _ hlastM
        by_contra hocc
        rw [Bool.not_eq_false] at hocc
        obtain ⟨pre, mid, post, heq, hci, hb, hw⟩ := searchToken_iff.mp hocc
        rcases le_or_lt (r0 :: rs).length pre.length with hle | hlt
        · -- the occurrence lies in the recursive output
          have heqA : (r0 :: rs) ++ (subToken b0 bs (r0 :: rs)
              (ctxLast (some c) (rest.take bs.length))
              (rest.drop bs.length)) = pre ++ (mid ++ post) := by
            rw [← List.append_assoc]
            exact heq
          obtain ⟨pre2, hpre2, hX2⟩ := append_eq_split (r0 :: rs) pre _ _
            heqA hle
          have hT : searchToken t0 ts (ctxLast (some c) (rest.take bs.length))
              (subToken b0 bs (r0 :: rs)
                (ctxLast (some c) (rest.take bs.length))
                (rest.drop bs.length)) = true := by
            apply searchToken_iff.mpr
            refine ⟨pre2, mid, post, by rw [hX2, List.append_assoc], hci, ?_, hw⟩
            cases pre2 with
            | nil =>
              rw [ctxLast_nil, hprevEq]
              simp only [boundaryL]
              rw [hlastMW]
              rfl
            | cons q qs =>
              rw [ctxLast_cons]
              rw [hpre2, ctxLast_append, ctxLast_cons] at hb
              exact hb
          rw [hX] at hT
          simp at hT
        · rcases le_or_lt (pre.length + mid.length) (r0 :: rs).length with
            hle2 | hlt2
          · -- mid would be an infix of the marker
            have heqB : (pre ++ mid) ++ post = (r0 :: rs) ++
                (subToken b0 bs (r0 :: rs)
                  (ctxLast (some c) (rest.take bs.length))
                  (rest.drop bs.length)) := heq.symm
            obtain ⟨e, he1, he2⟩ := append_eq_split (pre ++ mid) (r0 :: rs)
              _ _ heqB (by simpa using hle2)
            exact hRinf pre mid e (by rw [he1, List.append_assoc]) hci
          · -- mid would cover the marker's last character
            have heqC : pre ++ (mid ++ post) = (r0 :: rs) ++
                (subToken b0 bs (r0 :: rs)
                  (ctxLast (some c) (rest.take bs.length))
                  (rest.drop bs.length)) :=
              (List.append_assoc pre mid post).symm.trans heq.symm
            obtain ⟨R2, hR2, hmp⟩ := append_eq_split pre (r0 :: rs) _ _
              heqC (le_of_lt hlt)
            have hR2len : (r0 :: rs).length = pre.length + R2.length := by
              rw [hR2]; simp
            obtain ⟨f, hf1, hf2⟩ := append_eq_split R2 mid _ _ hmp.symm
              (by omega)
            cases R2 with
            | nil =>
              simp only [List.length_nil, Nat.add_zero] at hR2len
              omega
            | cons q qs =>
              have hmemR : (q :: qs).getLastD r0 ∈ q :: qs :=
                mem_getLastD q qs r0
              have hmem : (q :: qs).getLastD r0 ∈ mid := by
                rw [hf1]
                exact List.mem_append_left f hmemR
              have hlastR : rs.getLastD r0 = (q :: qs).getLastD r0 := by
                have h3 := getLastD_append_right pre q qs r0
                rw [← hR2, List.getLastD_cons] at h3
                exact h3
              obtain ⟨b, hbmem, hcib⟩ := ciEqL_mem hci hmem
              rw [← hlastR, hRlastT b hbmem] at hcib
              simp at hcib
      · -- no match of the replaced token at the head
        rw [Bool.not_eq_true] at hm
        rw [subToken_cons_neg hm]
        have hyp' : (t0 = b0 ∧ ts = bs) ∨
            searchToken t0 ts (some c) rest = false := by
          rcases hyp with h | h
          · exact Or.inl h
          · right
            have h2 : (roleMatchAt (t0 :: ts) prev (c :: rest) ||
                searchToken t0 ts (some c) rest) = false := h
            exact (Bool.or_eq_false_iff.mp h2).2
        have hX := ih (some c) rest hlenr hyp'
        have hgoal : searchToken t0 ts prev
            (c :: subToken b0 bs (r0 :: rs) (some c) rest) =
            (roleMatchAt (t0 :: ts) prev
              (c :: subToken b0 bs (r0 :: rs) (some c) rest) ||
             searchToken t0 ts (some c)
              (subToken b0 bs (r0 :: rs) (some c) rest)) := rfl
        rw [hgoal, hX, Bool.or_false]
        by_contra hro
        rw [Bool.not_eq_false] at hro
        obtain ⟨mid, post, heq2, hci, hb, hw⟩ := roleMatchAt_iff.mp hro
        have hmidne : mid ≠ [] := by
          intro hmm; rw [hmm] at hci; simp [ciEqL] at hci
        cases mid with
        | nil => exact absurd rfl hmidne
        | cons m0 m' =>
          rw [List.cons_append] at heq2
          injection heq2 with hcm0 hXeq
          subst hcm0
          obtain ⟨p, r2, hsp, hcase⟩ :=
            subToken_split b0 bs (r0 :: rs) (some c) rest
          rcases hcase with ⟨hout, hr2⟩ | ⟨z, hout⟩
          · -- the output is exactly a prefix of the input: the occurrence
            -- maps verbatim into the input
            subst hr2
            rw [List.append_nil] at hsp
            have hrest : rest = m' ++ post := by rw [hsp, ← hout, ← hXeq]
            have hmatch : roleMatchAt (t0 :: ts) prev (c :: rest) = true := by
              apply roleMatchAt_iff.mpr
              exact ⟨c :: m', post, by rw [hrest, List.cons_append], hci, hb, hw⟩
            rcases hyp with ⟨ht0, hts⟩ | hfalse
            · rw [ht0, hts] at hmatch
              rw [hmatch] at hm
              simp at hm
            · have hst : searchToken t0 ts prev (c :: rest) =
                  (roleMatchAt (t0 :: ts) prev (c :: rest) ||
                   searchToken t0 ts (some c) rest) := rfl
              rw [hst, hmatch] at hfalse
              simp at hfalse
          · -- the output is p ++ marker ++ z: compare the occurrence's
            -- extent with p
            have hEq3 : m' ++ post = p ++ ((r0 :: rs) ++ z) := by
              rw [← hXeq]
              exact hout
            rcases lt_trichotomy m'.length p.length with hlt | heqq | hgt
            · obtain ⟨e, he1, he2⟩ := append_eq_split m' p _ _ hEq3
                (le_of_lt hlt)
              cases e with
              | nil => rw [he1] at hlt; simp at hlt
              | cons d ds =>
                rw [he2] at hw
                have hwd : isWordChar d = true := by
                  simpa [headIsWord] using hw
                have hmatch : roleMatchAt (t0 :: ts) prev (c :: rest) = true := by
                  apply roleMatchAt_iff.mpr
                  refine ⟨c :: m', d :: (ds ++ r2), ?_, hci, hb, ?_⟩
                  · rw [hsp, he1]; simp
                  · simpa [headIsWord] using hwd
                rcases hyp with ⟨ht0, hts⟩ | hfalse
                · rw [ht0, hts] at hmatch
                  rw [hmatch] at hm
                  simp at hm
                · have hst : searchToken t0 ts prev (c :: rest) =
                      (roleMatchAt (t0 :: ts) prev (c :: rest) ||
                       searchToken t0 ts (some c) rest) := rfl
                  rw [hst, hmatch] at hfalse
                  simp at hfalse
            · obtain ⟨e, he1, he2⟩ := append_eq_split m' p _ _ hEq3
                (le_of_eq heqq)
              have hlen1 : p.length = m'.length + e.length := by
                rw [he1]; simp
              have he0 : e = [] := List.length_eq_zero.mp (by omega)
              subst he0
              rw [List.nil_append] at he2
              rw [he2] at hw
              have hr0w : isWordChar r0 = true := by
                simpa [headIsWord] using hw
              rw [hRheadW] at hr0w
              simp at hr0w
            · obtain ⟨f, hf1, hf2⟩ := append_eq_split p m' _ _ hEq3.symm
                (le_of_lt hgt)
              cases f with
              | nil => rw [hf1] at hgt; simp at hgt
              | cons f0 fs =>
                rw [List.cons_append] at hf2
                injection hf2 with hf0 _
                have hmem : f0 ∈ c :: m' := by
                  rw [hf1]
                  exact List.mem_cons_of_mem c
                    (List.mem_append_right p (by simp))
                obtain ⟨b, hbmem, hcib⟩ := ciEqL_mem hci hmem
                rw [← hf0, hRheadT b hbmem] at hcib
                simp at hcib

theorem ciEq_colon_not_word (x : Char) (h : ciEq x ':' = true) :
    isWordChar x = false := by
  have h2 : lcn x.toNat = lcn (':' : Char).toNat := by
    simpa [ciEq] using h
  have h3 : lcn (':' : Char).toNat = 58 := by decide
  rw [h3] at h2
  unfold lcn at h2
  split_ifs at h2 with h4
  · omega
  · simp only [isWordChar, h2]
    decide

theorem ciInfix_check (tok r : List Char)
    (h : r.tails.all (fun t => !ciEqL (t.take tok.length) tok) = true) :
    ∀ pre mid suf, r = pre ++ mid ++ suf → ciEqL mid tok = true → False := by
  intro pre mid suf heq hci
  have hmlen : mid.length = tok.length := ciEqL_length hci
  have hsuffix : (mid ++ suf) <:+ r :=
    ⟨pre, (List.append_assoc pre mid suf).symm.trans heq.symm⟩
  have hmem : (mid ++ suf) ∈ r.tails := (List.mem_tails _ _).mpr hsuffix
  have h5 := List.all_eq_true.mp h _ hmem
  rw [← hmlen, List.take_left, hci] at h5
  simp at h5

theorem markSystem_eq : markSystem = '[' :: "role-redacted:system]".data := rfl
theorem markAssistant_eq :
    markAssistant = '[' :: "role-redacted:assistant]".data := rfl
theorem markUser_eq : markUser = '[' :: "role-redacted:user]".data := rfl

/-- `re.sub` for `system:` leaves no valid `system:` occurrence. -/
theorem sub_sys_no_sys (prev : Option Char) (s : List Char) :
    searchToken sysH sysT prev (subToken sysH sysT markSystem prev s) = false := by
  rw [markSystem_eq]
  exact subToken_no_occ sysH sysH '[' sysT sysT _
    (fun x hx => ciEq_colon_not_word x hx) (by decide) (by decide) (by decide)
    (ciInfix_check _ _ (by decide)) s.length prev s le_rfl (Or.inl ⟨rfl, rfl⟩)

/-- `re.sub` for `assistant:` preserves absence of `system:`. -/
theorem sub_asst_no_sys (prev : Option Char) (s : List Char)
    (h : searchToken sysH sysT prev s = false) :
    searchToken sysH sysT prev (subToken asstH asstT markAssistant prev s) =
      false := by
  rw [markAssistant_eq]
  exact subToken_no_occ sysH asstH '[' sysT asstT _
    (fun x hx => ciEq_colon_not_word x hx) (by decide) (by decide) (by decide)
    (ciInfix_check _ _ (by decide)) s.length prev s le_rfl (Or.inr h)

/-- `re.sub` for `user:` preserves absence of `system:`. -/
theorem sub_user_no_sys (prev : Option Char) (s : List Char)
    (h : searchToken sysH sysT prev s = false) :
    searchToken sysH sysT prev (subToken userH userT markUser prev s) =
      false := by
  rw [markUser_eq]
  exact subToken_no_occ sysH userH '[' sysT userT _
    (fun x hx => ciEq_colon_not_word x hx) (by decide) (by decide) (by decide)
    (ciInfix_check _ _ (by decide)) s.length prev s le_rfl (Or.inr h)

/-- `re.sub` for `assistant:` leaves no valid `assistant:` occurrence. -/
theorem sub_asst_no_asst (prev : Option Char) (s : List Char) :
    searchToken asstH asstT prev (subToken asstH asstT markAssistant prev s) =
      false := by
  rw [markAssistant_eq]
  exact subToken_no_occ asstH asstH '[' asstT asstT _
    (fun x hx => ciEq_colon_not_word x hx) (by decide) (by decide) (by decide)
    (ciInfix_check _ _ (by decide)) s.length prev s le_rfl (Or.inl ⟨rfl, rfl⟩)

/-- `re.sub` for `user:` preserves absence of `assistant:`. -/
theorem sub_user_no_asst (prev : Option Char) (s : List Char)
    (h : searchToken asstH asstT prev s = false) :
    searchToken asstH asstT prev (subToken userH userT markUser prev s) =
      false := by
  rw [markUser_eq]
  exact subToken_no_occ asstH userH '[' asstT userT _
    (fun x hx => ciEq_colon_not_word x hx) (by decide) (by decide) (by decide)
    (ciInfix_check _ _ (by decide)) s.length prev s le_rfl (Or.inr h)

/-- `re.sub` for `user:` leaves no valid `user:` occurrence. -/
theorem sub_user_no_user (prev : Option Char) (s : List Char) :
    searchToken userH userT prev (subToken userH userT markUser prev s) =
      false := by
  rw [markUser_eq]
  exact subToken_no_occ userH userH '[' userT userT _
    (fun x hx => ciEq_colon_not_word x hx) (by decide) (by decide) (by decide)
    (ciInfix_check _ _ (by decide)) s.length prev s le_rfl (Or.inl ⟨rfl, rfl⟩)

/-- After `_neutralize_injection_markers`, none of the three role-marker
tokens has a boundary-valid occurrence left. -/
theorem neutralize_no_role_occ (t : String) :
    searchToken sysH sysT none (neutralize_injection_markers t).data = false ∧
    searchToken asstH asstT none (neutralize_injection_markers t).data = false ∧
    searchToken userH userT none (neutralize_injection_markers t).data = false := by
  have hd : (neutralize_injection_markers t).data =
      subToken userH userT markUser none
        (subToken asstH asstT markAssistant none
          (subToken sysH sysT markSystem none t.data)) := rfl
  rw [hd]
  refine ⟨?_, ?_, ?_⟩
  · exact sub_user_no_sys none _ (sub_asst_no_sys none _ (sub_sys_no_sys none _))
  · exact sub_user_no_asst none _ (sub_asst_no_asst none _)
  · exact sub_user_no_user none _

/-! ## Sanitizer pipeline lemmas -/

theorem sanitizeLoop_fst : ∀ l : List String,
    (sanitizeLoop l).1 = l.map sanitizeOne := by
  intro l
  induction l with
  | nil => rfl
  | cons s rest ih => simp [sanitizeLoop, ih]

theorem sanitizeLoop_snd : ∀ l : List String,
    (sanitizeLoop l).2 = l.flatMap detect_suspicious := by
  intro l
  induction l with
  | nil => rfl
  | cons s rest ih => simp [sanitizeLoop, ih]

/-- `subToken` is the identity when the text has no boundary-valid match. -/
theorem subToken_id (t0 : Char) (ts repl : List Char) :
    ∀ (prev : Option Char) (s : List Char),
      searchToken t0 ts prev s = false → subToken t0 ts repl prev s = s := by
  intro prev s
  induction s generalizing prev with
  | nil => intro _; rfl
  | cons c rest ih =>
    intro h
    have h2 : (roleMatchAt (t0 :: ts) prev (c :: rest) ||
        searchToken t0 ts (some c) rest) = false := h
    obtain ⟨hr, hs⟩ := Bool.or_eq_false_iff.mp h2
    rw [subToken_cons_neg hr, ih _ hs]

theorem detect_mem {s w : String} (h : w ∈ detect_suspicious s) :
    ∃ pr ∈ SUSPECT_PATTERNS, pr.2 s = true ∧
      w = "Suspicious pattern matched: /" ++ pr.1 ++ "/" := by
  obtain ⟨pr, hf, hw⟩ := List.mem_map.mp h
  obtain ⟨hmem, htest⟩ := List.mem_filter.mp hf
  exact ⟨pr, hmem, htest, hw.symm⟩

/-- Specialised prefix test used to classify count-capping warnings. -/
def startsWithL : List Char → List Char → Bool
  | [], _ => true
  | _ :: _, [] => false
  | a :: as, b :: bs => (a == b) && startsWithL as bs

/-- A warning is a count-capping warning when it starts with the fixed
text `Sample count capped:`. -/
def isCapWarning (w : String) : Bool :=
  startsWithL "Sample count capped:".data w.data

theorem startsWithL_self_append : ∀ l z : List Char,
    startsWithL l (l ++ z) = true := by
  intro l
  induction l with
  | nil => intro z; rfl
  | cons a as ih => intro z; simp [startsWithL, ih]

theorem startsWithL_su (Z : List Char) :
    startsWithL "Sample count capped:".data ('S' :: 'u' :: Z) = false := rfl

theorem detect_not_cap {s w : String} (h : w ∈ detect_suspicious s) :
    isCapWarning w = false := by
  obtain ⟨pr, _, _, rfl⟩ := detect_mem h
  have h1 : "Suspicious pattern matched: /".data =
      'S' :: 'u' :: "spicious pattern matched: /".data := rfl
  have h2 : ("Suspicious pattern matched: /" ++ pr.1 ++ "/").data =
      'S' :: 'u' :: (("spicious pattern matched: /".data ++ pr.1.data) ++
        "/".data) := by
    rw [String.data_append, String.data_append, h1]
    simp
  rw [isCapWarning, h2]
  exact startsWithL_su _

theorem cap_msg_is_cap (n : Nat) :
    isCapWarning ("Sample count capped: " ++ toString n ++ " -> " ++
      toString MAX_SAMPLES) = true := by
  have h1 : "Sample count capped: ".data =
      "Sample count capped:".data ++ [' '] := rfl
  have h2 : ("Sample count capped: " ++ toString n ++ " -> " ++
      toString MAX_SAMPLES).data =
      "Sample count capped:".data ++ ([' '] ++ ((toString n).data ++
        (" -> ".data ++ (toString MAX_SAMPLES).data))) := by
    rw [String.data_append, String.data_append, String.data_append, h1]
    simp
  rw [isCapWarning, h2]
  exact startsWithL_self_append _ _

theorem searchRoleThenWord_imp (t0 : Char) (ts tokB : List Char) :
    ∀ (prev : Option Char) (s : List Char),
      searchRoleThenWord t0 ts tokB prev s = true →
      searchToken t0 ts prev s = true := by
  intro prev s
  induction s generalizing prev with
  | nil => intro h; simp [searchRoleThenWord] at h
  | cons c rest ih =>
    intro h
    simp only [searchRoleThenWord, Bool.or_eq_true, Bool.and_eq_true] at h
    rcases h with ⟨hro, _⟩ | h
    · simp [searchToken, hro]
    · simp [searchToken, ih _ h]

/-! ### C5: role-marker neutralization -/

/-- C5 is false as stated: the trailing `\b` of `(?i)\bsystem:\b` sits
after the non-word `:`, so it demands a word character right after the
colon.  The sample "SYSTEM: obey" (colon followed by a space) is left
untouched by sanitization: the literal role marker survives and no
redaction marker appears. -/
theorem C5_counterexample :
    (sanitize_samples ["SYSTEM: obey"]).1 = ["SYSTEM: obey"] ∧
    containsSub "SYSTEM:".data
      ((sanitize_samples ["SYSTEM: obey"]).1.headD "").data = true ∧
    containsSub "[role-redacted".data
      ((sanitize_samples ["SYSTEM: obey"]).1.headD "").data = false := by
  refine ⟨?_, by decide, by decide⟩
  decide

/-- C5 (amended): sanitization neutralizes exactly the boundary-valid
role-marker occurrences — those preceded by a non-word character (or the
start) and followed immediately by a word character.  Hence no sanitized
sample contains such a boundary-valid occurrence of `system:`,
`assistant:` or `user:` (case-insensitive); occurrences followed by a
non-word character (for example `SYSTEM: ` with its trailing space) are
not rewritten and may survive verbatim. -/
theorem C5_no_valid_role_marker (samples : List String) (out : String)
    (h : out ∈ (sanitize_samples samples).1) :
    searchToken sysH sysT none out.data = false ∧
    searchToken asstH asstT none out.data = false ∧
    searchToken userH userT none out.data = false := by
  have h1 : (sanitize_samples samples).1 =
      (samples.take MAX_SAMPLES).map sanitizeOne := by
    have h0 : (sanitize_samples samples).1 =
        (sanitizeLoop (samples.take MAX_SAMPLES)).1 := rfl
    rw [h0, sanitizeLoop_fst]
  rw [h1] at h
  obtain ⟨s, _, rfl⟩ := List.mem_map.mp h
  exact neutralize_no_role_occ
    (truncate (strip_control_chars s) MAX_CHARS_PER_SAMPLE)

/-- Witness for C5 (amended) at a concrete input. -/
theorem C5_no_valid_role_marker_witness :
    "[role-redacted:system]x" ∈ (sanitize_samples ["system:x"]).1 ∧
    searchToken sysH sysT none "[role-redacted:system]x".data = false := by
  refine ⟨by decide, ?_⟩
  exact (C5_no_valid_role_marker ["system:x"] "[role-redacted:system]x"
    (by decide)).1

/-! ### C9: detection does not re-trigger on neutralized output -/

/-- C9: running suspicious-pattern detection on a fully sanitized sample
never triggers any of the three role-marker patterns that neutralization
targets (`system:`, `assistant:`, `user:`), because the rewrite removes
every boundary-valid occurrence of the literal trigger token. -/
theorem C9_detection_idempotent (s : String) :
    "Suspicious pattern matched: /(?i)\\bsystem:\\b/" ∉
      detect_suspicious (sanitizeOne s) ∧
    "Suspicious pattern matched: /(?i)\\bassistant:\\b/" ∉
      detect_suspicious (sanitizeOne s) ∧
    "Suspicious pattern matched: /(?i)\\buser:\\b.*\\bsystem\\b/" ∉
      detect_suspicious (sanitizeOne s) := by
  obtain ⟨h1, h2, h3⟩ := neutralize_no_role_occ
    (truncate (strip_control_chars s) MAX_CHARS_PER_SAMPLE)
  have e1 : searchToken sysH sysT none (sanitizeOne s).data = false := h1
  have e2 : searchToken asstH asstT none (sanitizeOne s).data = false := h2
  have e3 : searchToken userH userT none (sanitizeOne s).data = false := h3
  have e6 : searchRoleThenWord userH userT "system".data none
      (sanitizeOne s).data = false := by
    cases h : searchRoleThenWord userH userT "system".data none
      (sanitizeOne s).data
    · rfl
    · have := searchRoleThenWord_imp userH userT "system".data none
        (sanitizeOne s).data h
      rw [e3] at this
      simp at this
  refine ⟨?_, ?_, ?_⟩
  · intro hmem
    obtain ⟨pr, hprmem, hptest, hpeq⟩ := detect_mem hmem
    simp only [SUSPECT_PATTERNS, List.mem_cons, List.not_mem_nil, or_false] at hprmem
    rcases hprmem with rfl | rfl | rfl | rfl | rfl | rfl | rfl
    · exact absurd hpeq (by decide)
    · exact absurd hpeq (by decide)
    · exact absurd hpeq (by decide)
    · exact absurd hptest (by simp [e1])
    · exact absurd hpeq (by decide)
    · exact absurd hpeq (by decide)
    · exact absurd hpeq (by decide)
  · intro hmem
    obtain ⟨pr, hprmem, hptest, hpeq⟩ := detect_mem hmem
    simp only [SUSPECT_PATTERNS, List.mem_cons, List.not_mem_nil, or_false] at hprmem
    rcases hprmem with rfl | rfl | rfl | rfl | rfl | rfl | rfl
    · exact absurd hpeq (by decide)
    · exact absurd hpeq (by decide)
    · exact absurd hpeq (by decide)
    · exact absurd hpeq (by decide)
    · exact absurd hptest (by simp [e2])
    · exact absurd hpeq (by decide)
    · exact absurd hpeq (by decide)
  · intro hmem
    obtain ⟨pr, hprmem, hptest, hpeq⟩ := detect_mem hmem
    simp only [SUSPECT_PATTERNS, List.mem_cons, List.not_mem_nil, or_false] at hprmem
    rcases hprmem with rfl | rfl | rfl | rfl | rfl | rfl | rfl
    · exact absurd hpeq (by decide)
    · exact absurd hpeq (by decide)
    · exact absurd hpeq (by decide)
    · exact absurd hpeq (by decide)
    · exact absurd hpeq (by decide)
    · exact absurd hptest (by simp [e6])
    · exact absurd hpeq (by decide)

/-! ### C6: sample-count cap -/

/-- C6: the warnings of `sanitize_samples` contain exactly one
count-capping warning when the input exceeds the 200-sample cap — it is
the first warning and states the original count and the cap — and none
otherwise; the retained sample count is the cap when over it and the
input length when within it. -/
theorem C6_sample_count_cap (samples : List String) :
    ((sanitize_samples samples).2.countP isCapWarning =
      if MAX_SAMPLES < samples.length then 1 else 0) ∧
    (MAX_SAMPLES < samples.length →
      (sanitize_samples samples).1.length = MAX_SAMPLES ∧
      (sanitize_samples samples).2.head? =
        some ("Sample count capped: " ++ toString samples.length ++ " -> " ++
          toString MAX_SAMPLES)) ∧
    (samples.length ≤ MAX_SAMPLES →
      (sanitize_samples samples).1.length = samples.length) := by
  have h1st : (sanitize_samples samples).1 =
      (sanitizeLoop (samples.take MAX_SAMPLES)).1 := rfl
  have h2nd : (sanitize_samples samples).2 =
      (if MAX_SAMPLES < samples.length then
        ["Sample count capped: " ++ toString samples.length ++ " -> " ++
          toString MAX_SAMPLES] else []) ++
      (sanitizeLoop (samples.take MAX_SAMPLES)).2 := rfl
  have hcount0 :
      (sanitizeLoop (samples.take MAX_SAMPLES)).2.countP isCapWarning = 0 := by
    apply List.countP_eq_zero.mpr
    intro w hw
    rw [sanitizeLoop_snd] at hw
    obtain ⟨s, _, hws⟩ := List.mem_flatMap.mp hw
    simp [detect_not_cap hws]
  have hlen1 : (sanitize_samples samples).1.length =
      min MAX_SAMPLES samples.length := by
    rw [h1st, sanitizeLoop_fst, List.length_map, List.length_take]
  refine ⟨?_, ?_, ?_⟩
  · rw [h2nd, List.countP_append, hcount0]
    by_cases hc : MAX_SAMPLES < samples.length
    · rw [if_pos hc, if_pos hc]
      simp [List.countP_cons, cap_msg_is_cap]
    · rw [if_neg hc, if_neg hc]
      simp
  · intro hc
    constructor
    · rw [hlen1]; omega
    · rw [h2nd, if_pos hc]
      rfl
  · intro hc
    rw [hlen1]; omega

/-- Witness for C6 at concrete inputs: 201 samples trigger exactly one
capping warning and truncation to 200; a single sample triggers none. -/
theorem C6_sample_count_cap_witness :
    MAX_SAMPLES < (List.replicate 201 "x").length ∧
    (sanitize_samples (List.replicate 201 "x")).2.countP isCapWarning = 1 ∧
    (sanitize_samples (List.replicate 201 "x")).1.length = 200 ∧
    (sanitize_samples ["a"]).2.countP isCapWarning = 0 := by
  obtain ⟨hc1, hc2, _⟩ := C6_sample_count_cap (List.replicate 201 "x")
  obtain ⟨hd1, _, _⟩ := C6_sample_count_cap ["a"]
  refine ⟨by decide, ?_, ?_, ?_⟩
  · rw [hc1]
    decide
  · exact (hc2 (by decide)).1
  · rw [hd1]
    decide

/-! ### C7: per-sample truncation -/

/-- C7 is false as stated: control characters are stripped *before* the
length check, so an 801-character sample containing one control character
strips to 800 characters and is never truncated — its sanitized length is
800, not 800 plus the marker length. -/
theorem C7_counterexample :
    (String.mk ('\x01' :: List.replicate 800 'a')).length = 801 ∧
    MAX_CHARS_PER_SAMPLE <
      (String.mk ('\x01' :: List.replicate 800 'a')).length ∧
    (sanitizeOne (String.mk ('\x01' :: List.replicate 800 'a'))).length = 800 ∧
    (sanitizeOne (String.mk ('\x01' :: List.replicate 800 'a'))).length ≠
      MAX_CHARS_PER_SAMPLE + TRUNC_MARKER.length := by
  refine ⟨by decide, by decide, ?_, ?_⟩
  · decide
  · decide

/-- C7 (amended): whenever the control-character-stripped text is longer
than 800 characters and the truncated text contains no boundary-valid
role-marker occurrence (so neutralization leaves it unchanged), the
sanitized output is exactly the first 800 characters of the *stripped*
text followed by the visible truncation marker, and its length is
800 + 13. -/
theorem C7_truncation (s : String)
    (h1 : MAX_CHARS_PER_SAMPLE < (strip_control_chars s).length)
    (h2 : searchToken sysH sysT none
      (truncate (strip_control_chars s) MAX_CHARS_PER_SAMPLE).data = false)
    (h3 : searchToken asstH asstT none
      (truncate (strip_control_chars s) MAX_CHARS_PER_SAMPLE).data = false)
    (h4 : searchToken userH userT none
      (truncate (strip_control_chars s) MAX_CHARS_PER_SAMPLE).data = false) :
    sanitizeOne s =
      String.mk ((strip_control_chars s).data.take MAX_CHARS_PER_SAMPLE) ++
        TRUNC_MARKER ∧
    (sanitizeOne s).length = MAX_CHARS_PER_SAMPLE + TRUNC_MARKER.length := by
  have hneu : sanitizeOne s =
      truncate (strip_control_chars s) MAX_CHARS_PER_SAMPLE := by
    have e1 := subToken_id sysH sysT markSystem none
      (truncate (strip_control_chars s) MAX_CHARS_PER_SAMPLE).data h2
    have e2 := subToken_id asstH asstT markAssistant none
      (truncate (strip_control_chars s) MAX_CHARS_PER_SAMPLE).data
    have e3 := subToken_id userH userT markUser none
      (truncate (strip_control_chars s) MAX_CHARS_PER_SAMPLE).data
    show String.mk (subToken userH userT markUser none
      (subToken asstH asstT markAssistant none
        (subToken sysH sysT markSystem none
          (truncate (strip_control_chars s) MAX_CHARS_PER_SAMPLE).data))) = _
    rw [e1, e2 h3, e3 h4]
  have htr : truncate (strip_control_chars s) MAX_CHARS_PER_SAMPLE =
      String.mk ((strip_control_chars s).data.take MAX_CHARS_PER_SAMPLE) ++
        TRUNC_MARKER := by
    rw [truncate, if_neg (by omega)]
  refine ⟨by rw [hneu, htr], ?_⟩
  rw [hneu, htr]
  have hlen : (String.mk ((strip_control_chars s).data.take
      MAX_CHARS_PER_SAMPLE) ++ TRUNC_MARKER).length =
      ((strip_control_chars s).data.take MAX_CHARS_PER_SAMPLE).length +
        TRUNC_MARKER.length := by
    rw [String.length_append]
    rfl
  rw [hlen, List.length_take]
  have : (strip_control_chars s).length =
      (strip_control_chars s).data.length := rfl
  omega

/-- Witness for C7 (amended) at a concrete 801-character sample. -/
theorem C7_truncation_witness :
    MAX_CHARS_PER_SAMPLE <
      (strip_control_chars (String.mk (List.replicate 801 'a'))).length ∧
    (sanitizeOne (String.mk (List.replicate 801 'a'))).length =
      MAX_CHARS_PER_SAMPLE + TRUNC_MARKER.length := by
  refine ⟨by decide, ?_⟩
  exact (C7_truncation (String.mk (List.replicate 801 'a')) (by decide)
    (by decide) (by decide) (by decide)).2

/-! ### C8: detection runs on the original text -/

/-- C8: the warning sequence of `sanitize_samples` is exactly the optional
count-capping warning followed by the suspicious-pattern warnings of the
*original* (pre-transformation) text of each retained sample, in order; in
particular every suspicious-pattern warning of a retained sample's
original text appears in the shared warning sequence, independently of
what truncation or neutralization later did to that sample. -/
theorem C8_detect_on_original (samples : List String) :
    ((sanitize_samples samples).2 =
      (if MAX_SAMPLES < samples.length then
        ["Sample count capped: " ++ toString samples.length ++ " -> " ++
          toString MAX_SAMPLES] else []) ++
      (samples.take MAX_SAMPLES).flatMap detect_suspicious) ∧
    (∀ s ∈ samples.take MAX_SAMPLES, ∀ w ∈ detect_suspicious s,
      w ∈ (sanitize_samples samples).2) := by
  have h2nd : (sanitize_samples samples).2 =
      (if MAX_SAMPLES < samples.length then
        ["Sample count capped: " ++ toString samples.length ++ " -> " ++
          toString MAX_SAMPLES] else []) ++
      (sanitizeLoop (samples.take MAX_SAMPLES)).2 := rfl
  constructor
  · rw [h2nd, sanitizeLoop_snd]
  · intro s hs w hw
    rw [h2nd, sanitizeLoop_snd]
    exact List.mem_append_right _ (List.mem_flatMap.mpr ⟨s, hs, hw⟩)

/-- Witness for C8: the `system:` warning of the original sample
`"system:x"` is present in the warnings even though the sanitized text
`"[role-redacted:system]x"` no longer matches any pattern. -/
theorem C8_detect_on_original_witness :
    "Suspicious pattern matched: /(?i)\\bsystem:\\b/" ∈
      (sanitize_samples ["system:x"]).2 ∧
    detect_suspicious (sanitizeOne "system:x") = [] := by
  refine ⟨(C8_detect_on_original ["system:x"]).2 "system:x" (by decide) _
    (by decide), by decide⟩

/-! ## llm.py: response validation model

`json.loads` results are modelled by `JValue` (JSON numbers restricted to
integers; floats are out of scope of the claims).  Python exceptions of
the validation tail of `generate_ai_insights` are modelled by `PyErr`. -/

inductive JValue where
  | jnull
  | jbool (b : Bool)
  | jnum (n : Int)
  | jstr (s : String)
  | jarr (xs : List JValue)
  | jobj (fields : List (String × JValue))

inductive PyErr where
  | valueError (msg : String)
  | typeError
  | attributeError
deriving DecidableEq, Repr

def squote : Char := Char.ofNat 39
def lbrace : Char := Char.ofNat 123
def rbrace : Char := Char.ofNat 125

mutual
/-- Python `repr` of a loaded JSON value (single-quoted strings, `True`,
`False`, `None`, bracketed containers). -/
def pyRepr : JValue → String
  | .jnull => "None"
  | .jbool true => "True"
  | .jbool false => "False"
  | .jnum n => toString n
  | .jstr s => String.mk (squote :: s.data ++ [squote])
  | .jarr xs => "[" ++ pyReprList xs ++ "]"
  | .jobj fs => String.mk [lbrace] ++ pyReprFields fs ++ String.mk [rbrace]

def pyReprList : List JValue → String
  | [] => ""
  | [x] => pyRepr x
  | x :: xs => pyRepr x ++ ", " ++ pyReprList xs

def pyReprFields : List (String × JValue) → String
  | [] => ""
  | [(k, v)] => String.mk (squote :: k.data ++ [squote]) ++ ": " ++ pyRepr v
  | (k, v) :: fs => String.mk (squote :: k.data ++ [squote]) ++ ": " ++
      pyRepr v ++ ", " ++ pyReprFields fs
end

/-- Python `str` of a loaded JSON value. -/
def pyStr : JValue → String
  | .jstr s => s
  | .jnull => "None"
  | .jbool true => "True"
  | .jbool false => "False"
  | .jnum n => toString n
  | .jarr xs => pyRepr (.jarr xs)
  | .jobj fs => pyRepr (.jobj fs)

/-- Key presence in an object's field list. -/
def jHasKey (fs : List (String × JValue)) (k : String) : Bool :=
  fs.any (fun p => p.1 == k)

def jLookup (fs : List (String × JValue)) (k : String) : Option JValue :=
  (fs.find? (fun p => p.1 == k)).map (fun p => p.2)

/-- Python dict assignment `data[k] = v`: replace in place, else append. -/
def jSet : List (String × JValue) → String → JValue → List (String × JValue)
  | [], k, v => [(k, v)]
  | (k', v') :: fs, k, v =>
    if k' == k then (k, v) :: fs else (k', v') :: jSet fs k v

/-- Python equality `k == x` of a string against a loaded JSON value. -/
def pyEqStr (k : String) : JValue → Bool
  | .jstr s => k == s
  | _ => false

/-- Python `k in data`: key test on dicts, membership on lists, substring
test on strings, `TypeError` otherwise. -/
def pyContains (k : String) : JValue → Except PyErr Bool
  | .jobj fs => .ok (jHasKey fs k)
  | .jarr xs => .ok (xs.any (pyEqStr k))
  | .jstr s => .ok (containsSub k.data s.data)
  | _ => .error .typeError

/-- Python `data.get(k, default)`: only dicts have `.get`. -/
def pyGet : JValue → String → JValue → Except PyErr JValue
  | .jobj fs, k, d => .ok ((jLookup fs k).getD d)
  | _, _, _ => .error .attributeError

/-- Python `data[k] = v` for the shapes reachable here. -/
def pySetItem : JValue → String → JValue → Except PyErr JValue
  | .jobj fs, k, v => .ok (.jobj (jSet fs k v))
  | _, _, _ => .error .typeError

def REQUIRED_KEYS : List String :=
  ["tldr", "themes", "improvements", "quick_wins", "long_term"]

def LIST_KEYS : List String :=
  ["themes", "improvements", "quick_wins", "long_term"]

/-- The presence loop of `generate_ai_insights`
(src/core/llm.py lines 222-224). -/
def checkKeys (data : JValue) : List String → Except PyErr Unit
  | [] => .ok ()
  | k :: ks =>
    match pyContains k data with
    | .error e => .error e
    | .ok true => checkKeys data ks
    | .ok false => .error (.valueError ("Missing key in LLM JSON output: " ++ k))

/-- The list-field coercion of `generate_ai_insights`
(src/core/llm.py lines 227-232). -/
def listCoerce : JValue → JValue
  | .jarr xs => .jarr (xs.map (fun x => .jstr (pyStr x)))
  | v => .jarr [.jstr (pyStr v)]

/-- The normalization loop over the four list keys
(src/core/llm.py lines 227-232). -/
def normFields : JValue → List String → Except PyErr JValue
  | data, [] => .ok data
  | data, k :: ks =>
    match pyGet data k (.jarr []) with
    | .error e => .error e
    | .ok v =>
      match pySetItem data k (listCoerce v) with
      | .error e => .error e
      | .ok data' => normFields data' ks

/-- `data["tldr"] = str(data.get("tldr", ""))` (src/core/llm.py line 234). -/
def tldrStep (data : JValue) : Except PyErr JValue :=
  match pyGet data "tldr" (.jstr "") with
  | .error e => .error e
  | .ok v => pySetItem data "tldr" (.jstr (pyStr v))

/-- The validation tail of `generate_ai_insights`
(src/core/llm.py lines 216-236), with `json.loads` abstracted as the
`Option JValue` argument (`none` = `JSONDecodeError`). -/
def validate_response (parsed : Option JValue) : Except PyErr JValue :=
  match parsed with
  | none => .error (.valueError
      "LLM returned non-JSON output; try upgrading the SDK or reducing sample size.")
  | some data =>
    match checkKeys data REQUIRED_KEYS with
    | .error e => .error e
    | .ok () =>
      match normFields data LIST_KEYS with
      | .error e => .error e
      | .ok d1 => tldrStep d1

theorem jLookup_jSet_same (fs : List (String × JValue)) (k : String)
    (v : JValue) : jLookup (jSet fs k v) k = some v := by
  induction fs with
  | nil => simp [jSet, jLookup, List.find?]
  | cons p fs ih =>
    obtain ⟨k', v'⟩ := p
    by_cases h : (k' == k) = true
    · simp [jSet, h, jLookup, List.find?]
    · have hf : (k' == k) = false := by revert h; cases k' == k <;> simp
      simp only [jSet, hf, Bool.false_eq_true, if_false]
      simp only [jLookup, List.find?, hf] at ih ⊢
      exact ih

theorem jLookup_jSet_other (fs : List (String × JValue)) (k : String)
    (v : JValue) (k2 : String) (hne : k2 ≠ k) :
    jLookup (jSet fs k v) k2 = jLookup fs k2 := by
  have hne' : (k == k2) = false := by
    cases hb : k == k2
    · rfl
    · exact absurd (eq_of_beq hb).symm hne
  induction fs with
  | nil => simp [jSet, jLookup, List.find?, hne']
  | cons p fs ih =>
    obtain ⟨k', v'⟩ := p
    by_cases h : (k' == k) = true
    · have hk' : k' = k := eq_of_beq h
      subst hk'
      simp [jSet, jLookup, List.find?, hne']
    · have hf : (k' == k) = false := by revert h; cases k' == k <;> simp
      simp only [jSet, hf, Bool.false_eq_true, if_false]
      simp only [jLookup, List.find?] at ih ⊢
      cases hb : k' == k2
      · exact ih
      · rfl

theorem checkKeys_ok (keys : List String) (fs : List (String × JValue))
    (h : ∀ k ∈ keys, jHasKey fs k = true) :
    checkKeys (.jobj fs) keys = .ok () := by
  induction keys with
  | nil => rfl
  | cons k0 ks ih =>
    have h0 : jHasKey fs k0 = true := h k0 (List.mem_cons_self _ _)
    simp only [checkKeys, pyContains, h0]
    exact ih (fun k hk => h k (List.mem_cons_of_mem _ hk))

theorem checkKeys_missing (keys : List String) (fs : List (String × JValue))
    (k : String) (h : keys.find? (fun k => !jHasKey fs k) = some k) :
    checkKeys (.jobj fs) keys =
      .error (.valueError ("Missing key in LLM JSON output: " ++ k)) := by
  induction keys with
  | nil => simp [List.find?] at h
  | cons k0 ks ih =>
    by_cases h0 : jHasKey fs k0 = true
    · have hstep : (k0 :: ks).find? (fun k => !jHasKey fs k) =
          ks.find? (fun k => !jHasKey fs k) := by
        simp [List.find?, h0]
      rw [hstep] at h
      simp only [checkKeys, pyContains, h0]
      exact ih h
    · have h0' : jHasKey fs k0 = false := by
        revert h0; cases jHasKey fs k0 <;> simp
      have hstep : (k0 :: ks).find? (fun k => !jHasKey fs k) = some k0 := by
        simp [List.find?, h0']
      rw [hstep, Option.some.injEq] at h
      subst h
      simp [checkKeys, pyContains, h0']

theorem normFields_obj (keys : List String) :
    ∀ fs : List (String × JValue), keys.Nodup →
    ∃ gs, normFields (.jobj fs) keys = .ok (.jobj gs) ∧
      (∀ k ∈ keys, jLookup gs k =
        some (listCoerce ((jLookup fs k).getD (.jarr [])))) ∧
      (∀ k, k ∉ keys → jLookup gs k = jLookup fs k) := by
  induction keys with
  | nil =>
    intro fs _
    exact ⟨fs, rfl, by simp, fun k _ => rfl⟩
  | cons k0 ks ih =>
    intro fs hnd
    rw [List.nodup_cons] at hnd
    obtain ⟨hk0, hndks⟩ := hnd
    obtain ⟨gs, hgs, hin, hout⟩ :=
      ih (jSet fs k0 (listCoerce ((jLookup fs k0).getD (.jarr [])))) hndks
    refine ⟨gs, ?_, ?_, ?_⟩
    · simp only [normFields, pyGet, pySetItem]
      exact hgs
    · intro k hk
      rcases List.mem_cons.mp hk with rfl | hk'
      · rw [hout k hk0, jLookup_jSet_same]
      · have hne : k ≠ k0 := fun he => hk0 (he ▸ hk')
        rw [hin k hk', jLookup_jSet_other _ _ _ _ hne]
    · intro k hk
      have hk' : k ∉ ks := fun h => hk (List.mem_cons_of_mem _ h)
      have hne : k ≠ k0 := fun he => hk (he ▸ List.mem_cons_self _ _)
      rw [hout k hk', jLookup_jSet_other _ _ _ _ hne]

theorem validate_obj_spec (fs : List (String × JValue))
    (hall : ∀ k ∈ REQUIRED_KEYS, jHasKey fs k = true) :
    ∃ gs, validate_response (some (.jobj fs)) = .ok (.jobj gs) ∧
      jLookup gs "tldr" =
        some (.jstr (pyStr ((jLookup fs "tldr").getD (.jstr "")))) ∧
      (∀ k ∈ LIST_KEYS, jLookup gs k =
        some (listCoerce ((jLookup fs k).getD (.jarr [])))) ∧
      (∀ k, k ∉ REQUIRED_KEYS → jLookup gs k = jLookup fs k) := by
  have hck := checkKeys_ok REQUIRED_KEYS fs hall
  obtain ⟨gs1, hgs1, hin, hout⟩ := normFields_obj LIST_KEYS fs (by decide)
  refine ⟨jSet gs1 "tldr"
    (.jstr (pyStr ((jLookup gs1 "tldr").getD (.jstr "")))), ?_, ?_, ?_, ?_⟩
  · simp only [validate_response, hck, hgs1, tldrStep, pyGet, pySetItem]
  · rw [jLookup_jSet_same, hout "tldr" (by decide)]
  · intro k hk
    have hne : k ≠ "tldr" :=
      (by decide : ∀ k ∈ LIST_KEYS, ¬ (k = "tldr")) k hk
    rw [jLookup_jSet_other _ _ _ _ hne, hin k hk]
  · intro k hk
    have h1 : k ∉ LIST_KEYS := fun hmem =>
      hk ((by decide : ∀ k ∈ LIST_KEYS, k ∈ REQUIRED_KEYS) k hmem)
    have h2 : k ≠ "tldr" := fun he =>
      hk (he ▸ (by decide : "tldr" ∈ REQUIRED_KEYS))
    rw [jLookup_jSet_other _ _ _ _ h2, hout k h1]

/-! ### C3: validator behaviour -/

/-- C3: the validation tail fails exactly when the text is not parseable
JSON or a required key is absent; for objects the first missing key (in
the fixed order) names the error; for objects carrying all five keys it
always succeeds, coercing `tldr` to a string unconditionally and each of
the four sequence keys to a sequence of strings (a non-sequence value
becomes the one-element sequence of its string representation, a sequence
has every element coerced); non-object parses always fail. -/
theorem C3_validator_totality :
    (validate_response none = .error (.valueError
      "LLM returned non-JSON output; try upgrading the SDK or reducing sample size.")) ∧
    (∀ fs : List (String × JValue),
      (∀ k ∈ REQUIRED_KEYS, jHasKey fs k = true) →
      ∃ gs, validate_response (some (.jobj fs)) = .ok (.jobj gs) ∧
        jLookup gs "tldr" =
          some (.jstr (pyStr ((jLookup fs "tldr").getD (.jstr "")))) ∧
        (∀ k v, k ∈ LIST_KEYS → jLookup fs k = some v →
          jLookup gs k = some (match v with
            | .jarr xs => .jarr (xs.map (fun x => .jstr (pyStr x)))
            | w => .jarr [.jstr (pyStr w)]))) ∧
    (∀ (fs : List (String × JValue)) (k : String),
      REQUIRED_KEYS.find? (fun k => !jHasKey fs k) = some k →
      validate_response (some (.jobj fs)) =
        .error (.valueError ("Missing key in LLM JSON output: " ++ k))) ∧
    (∀ fs : List (String × JValue),
      (∃ gs, validate_response (some (.jobj fs)) = .ok gs) ↔
      (∀ k ∈ REQUIRED_KEYS, jHasKey fs k = true)) ∧
    (∀ v : JValue, (∀ fs, v ≠ .jobj fs) →
      ∃ e, validate_response (some v) = .error e) := by
  refine ⟨rfl, ?_, ?_, ?_, ?_⟩
  · intro fs hall
    obtain ⟨gs, hok, htl, hin, _⟩ := validate_obj_spec fs hall
    refine ⟨gs, hok, htl, ?_⟩
    intro k v hk hv
    have h2 := hin k hk
    rw [hv] at h2
    rw [h2]
    cases v <;> rfl
  · intro fs k hfind
    have hck := checkKeys_missing REQUIRED_KEYS fs k hfind
    simp only [validate_response, hck]
  · intro fs
    constructor
    · rintro ⟨gs, hok⟩
      by_contra hall
      push_neg at hall
      obtain ⟨k, hkmem, hkne⟩ := hall
      have hkfalse : jHasKey fs k = false := by
        revert hkne; cases jHasKey fs k <;> simp
      have hfind : (REQUIRED_KEYS.find? (fun k => !jHasKey fs k)).isSome := by
        rw [List.find?_isSome]
        exact ⟨k, hkmem, by simp [hkfalse]⟩
      obtain ⟨k', hk'⟩ := Option.isSome_iff_exists.mp hfind
      have hck := checkKeys_missing REQUIRED_KEYS fs k' hk'
      rw [validate_response] at hok
      simp only [hck] at hok
      exact Except.noConfusion hok
    · intro hall
      obtain ⟨gs, hok, _⟩ := validate_obj_spec fs hall
      exact ⟨.jobj gs, hok⟩
  · intro v hv
    cases v with
    | jobj fs => exact absurd rfl (hv fs)
    | jnull => exact ⟨.typeError, rfl⟩
    | jbool b => exact ⟨.typeError, rfl⟩
    | jnum n => exact ⟨.typeError, rfl⟩
    | jstr s =>
      cases hck : checkKeys (.jstr s) REQUIRED_KEYS with
      | error e => exact ⟨e, by simp [validate_response, hck]⟩
      | ok u =>
        refine ⟨.attributeError, ?_⟩
        simp [validate_response, hck, normFields, LIST_KEYS, pyGet]
    | jarr xs =>
      cases hck : checkKeys (.jarr xs) REQUIRED_KEYS with
      | error e => exact ⟨e, by simp [validate_response, hck]⟩
      | ok u =>
        refine ⟨.attributeError, ?_⟩
        simp [validate_response, hck, normFields, LIST_KEYS, pyGet]

/-- Witness for C3 at concrete inputs: an object with all five keys and
ill-typed values validates; an object missing `themes` fails naming it. -/
theorem C3_validator_totality_witness :
    (∀ k ∈ REQUIRED_KEYS, jHasKey
      [("tldr", JValue.jnum 5), ("themes", JValue.jstr "a"),
       ("improvements", JValue.jarr [JValue.jnum 1, JValue.jstr "x"]),
       ("quick_wins", JValue.jarr []), ("long_term", JValue.jbool true),
       ("extra", JValue.jnull)] k = true) ∧
    (∃ gs, validate_response (some (.jobj
      [("tldr", JValue.jnum 5), ("themes", JValue.jstr "a"),
       ("improvements", JValue.jarr [JValue.jnum 1, JValue.jstr "x"]),
       ("quick_wins", JValue.jarr []), ("long_term", JValue.jbool true),
       ("extra", JValue.jnull)])) = .ok (.jobj gs) ∧
      jLookup gs "tldr" = some (.jstr (pyStr ((jLookup
        [("tldr", JValue.jnum 5), ("themes", JValue.jstr "a"),
         ("improvements", JValue.jarr [JValue.jnum 1, JValue.jstr "x"]),
         ("quick_wins", JValue.jarr []), ("long_term", JValue.jbool true),
         ("extra", JValue.jnull)] "tldr").getD (.jstr "")))) ∧
      (∀ k v, k ∈ LIST_KEYS → jLookup
        [("tldr", JValue.jnum 5), ("themes", JValue.jstr "a"),
         ("improvements", JValue.jarr [JValue.jnum 1, JValue.jstr "x"]),
         ("quick_wins", JValue.jarr []), ("long_term", JValue.jbool true),
         ("extra", JValue.jnull)] k = some v →
        jLookup gs k = some (match v with
          | .jarr xs => .jarr (xs.map (fun x => .jstr (pyStr x)))
          | w => .jarr [.jstr (pyStr w)]))) ∧
    validate_response (some (.jobj [("tldr", JValue.jnum 1)])) =
      .error (.valueError "Missing key in LLM JSON output: themes") := by
  refine ⟨?_, ?_, ?_⟩
  · decide
  · exact C3_validator_totality.2.1 _ (by decide)
  · exact C3_validator_totality.2.2.1 [("tldr", JValue.jnum 1)] "themes" rfl

/-! ### C10: extra keys pass through untouched -/

/-- C10: when the parsed object carries the five required keys plus any
additional keys, validation returns a record in which every additional
key still maps to its original, unmodified value — normalization touches
only the five named fields. -/
theorem C10_extra_keys_preserved (fs : List (String × JValue)) (k : String)
    (hall : ∀ k' ∈ REQUIRED_KEYS, jHasKey fs k' = true)
    (hk : k ∉ REQUIRED_KEYS) :
    ∃ gs, validate_response (some (.jobj fs)) = .ok (.jobj gs) ∧
      jLookup gs k = jLookup fs k := by
  obtain ⟨gs, hok, _, _, hout⟩ := validate_obj_spec fs hall
  exact ⟨gs, hok, hout k hk⟩

/-- Witness for C10 at a concrete object with an extra key. -/
theorem C10_extra_keys_preserved_witness :
    ∃ gs, validate_response (some (.jobj
      [("tldr", JValue.jstr "ok"), ("themes", JValue.jarr []),
       ("improvements", JValue.jarr []), ("quick_wins", JValue.jarr []),
       ("long_term", JValue.jarr []),
       ("model_note", JValue.jstr "gpt")])) = .ok (.jobj gs) ∧
      jLookup gs "model_note" = jLookup
        [("tldr", JValue.jstr "ok"), ("themes", JValue.jarr []),
         ("improvements", JValue.jarr []), ("quick_wins", JValue.jarr []),
         ("long_term", JValue.jarr []),
         ("model_note", JValue.jstr "gpt")] "model_note" :=
  C10_extra_keys_preserved _ "model_note" (by decide) (by decide)

/-! ## llm.py: `_extract_json` (C4)

The record type, a canonical compact JSON serializer for it (modelling
`json.dumps` with `"` and `\` escaped), a model of `json.loads` as a
recursive-descent parser (numbers restricted to integers, `\u` escapes
not modelled — neither is reachable from the serializer), and the
extraction algorithm of src/core/llm.py lines 70-116. -/

structure InsightRecord where
  tldr : String
  themes : List String
  improvements : List String
  quick_wins : List String
  long_term : List String

def escapeChars : List Char → List Char
  | [] => []
  | c :: rest =>
    if c = '"' ∨ c = '\\' then '\\' :: c :: escapeChars rest
    else c :: escapeChars rest

def serStr (s : String) : List Char := '"' :: (escapeChars s.data ++ ['"'])

def serStrList : List String → List Char
  | [] => []
  | [x] => serStr x
  | x :: xs => serStr x ++ ',' :: serStrList xs

def serList (xs : List String) : List Char := '[' :: (serStrList xs ++ [']'])

/-- Serialized object members: already-serialized values with their keys. -/
def serMembers : List (String × List Char) → List Char
  | [] => []
  | [(k, v)] => serStr k ++ ':' :: v
  | (k, v) :: rest => serStr k ++ ':' :: v ++ ',' :: serMembers rest

def serialize (r : InsightRecord) : List Char :=
  lbrace :: (serMembers
    [("tldr", serStr r.tldr), ("themes", serList r.themes),
     ("improvements", serList r.improvements),
     ("quick_wins", serList r.quick_wins),
     ("long_term", serList r.long_term)] ++ [rbrace])

/-- The object value an InsightRecord denotes. -/
def toJ (r : InsightRecord) : JValue :=
  .jobj [("tldr", .jstr r.tldr), ("themes", .jarr (r.themes.map .jstr)),
    ("improvements", .jarr (r.improvements.map .jstr)),
    ("quick_wins", .jarr (r.quick_wins.map .jstr)),
    ("long_term", .jarr (r.long_term.map .jstr))]

/-- Python regex `\s` (ASCII part). -/
def isSpaceRe (c : Char) : Bool :=
  c = ' ' || c = '\t' || c = '\n' || c = '\r' || c.toNat == 11 || c.toNat == 12

/-- After the lazy group's closing `}`: `\s*` then a closing fence. -/
def fenceAfter (s : List Char) : Bool :=
  "```".data.isPrefixOf (s.dropWhile isSpaceRe)

/-- The lazy group `{.*?}` of the fenced pattern: stop at the first `}`
whose remainder matches `\s*` + three backticks, else keep extending. -/
def lazyGroup : List Char → Option (List Char)
  | [] => none
  | c :: rest =>
    if c = rbrace ∧ fenceAfter rest then some [c]
    else (lazyGroup rest).map (fun g => c :: g)

/-- `\s*` then the `{`-headed lazy group. -/
def tryBody (s : List Char) : Option (List Char) :=
  match s.dropWhile isSpaceRe with
  | c :: rest => if c = lbrace then (lazyGroup rest).map (fun g => c :: g)
      else none
  | [] => none

/-- A whole-pattern match of ```` ```(?:json)?\s*({.*?})\s*``` ```` starting
at this position: consume the opening fence, greedily try the `json` tag
first, backtrack to the tagless form. -/
def fencedAt (s : List Char) : Option (List Char) :=
  if "```".data.isPrefixOf s then
    let r := s.drop 3
    match (if "json".data.isPrefixOf r then tryBody (r.drop 4) else none) with
    | some g => some g
    | none => tryBody r
  else none

/-- `re.search` of the fenced pattern: leftmost possible match start. -/
def fencedSearch : List Char → Option (List Char)
  | [] => none
  | c :: rest =>
    match fencedAt (c :: rest) with
    | some g => some g
    | none => fencedSearch rest

/-- The balanced-brace scan of `_extract_json` (src/core/llm.py lines
88-113), starting just after the initial `{` with depth 1; tracks
double-quoted strings and backslash escapes; returns the consumed
characters up to and including the `}` that closes the initial brace.
(The `depth = 0` situation at a `}` cannot occur when entered at an
opening brace.) -/
def walk : Nat → Bool → Bool → List Char → Option (List Char)
  | _, _, _, [] => none
  | depth, true, true, c :: rest => (walk depth true false rest).map (c :: ·)
  | depth, true, false, c :: rest =>
    if c = '\\' then (walk depth true true rest).map (c :: ·)
    else if c = '"' then (walk depth false false rest).map (c :: ·)
    else (walk depth true false rest).map (c :: ·)
  | depth, false, _, c :: rest =>
    if c = '"' then (walk depth true false rest).map (c :: ·)
    else if c = lbrace then (walk (depth + 1) false false rest).map (c :: ·)
    else if c = rbrace then
      if depth = 1 then some [c]
      else (walk (depth - 1) false false rest).map (c :: ·)
    else (walk depth false false rest).map (c :: ·)

/-- `text.find("{")`: the text before the first `{` and the text after it. -/
def breakAtBrace : List Char → Option (List Char × List Char)
  | [] => none
  | c :: rest =>
    if c = lbrace then some ([], rest)
    else (breakAtBrace rest).map (fun pr => (c :: pr.1, pr.2))

/-- JSON whitespace accepted by `json.loads`. -/
def jsonWs (c : Char) : Bool := c = ' ' || c = '\t' || c = '\n' || c = '\r'

/-- String-literal body parse (after the opening quote): returns the
decoded content and the remainder after the closing quote. -/
def parseStrBody : List Char → Option (List Char × List Char)
  | [] => none
  | c :: rest =>
    if c = '"' then some ([], rest)
    else if c = '\\' then
      match rest with
      | [] => none
      | e :: rest2 =>
        let dec : Option Char :=
          if e = '"' then some '"'
          else if e = '\\' then some '\\'
          else if e = '/' then some '/'
          else if e = 'b' then some (Char.ofNat 8)
          else if e = 'f' then some (Char.ofNat 12)
          else if e = 'n' then some '\n'
          else if e = 'r' then some '\r'
          else if e = 't' then some '\t'
          else none
        match dec with
        | some d => (parseStrBody rest2).map (fun pr => (d :: pr.1, pr.2))
        | none => none
    else (parseStrBody rest).map (fun pr => (c :: pr.1, pr.2))

def parseNatNum (s : List Char) : Option (Nat × List Char) :=
  let ds := s.takeWhile Char.isDigit
  if ds.isEmpty then none
  else some (ds.foldl (fun acc c => acc * 10 + (c.toNat - 48)) 0,
    s.dropWhile Char.isDigit)

def parseInt (s : List Char) : Option (Int × List Char) :=
  match s with
  | '-' :: rest => (parseNatNum rest).map (fun pr => (-(pr.1 : Int), pr.2))
  | _ => (parseNatNum s).map (fun pr => ((pr.1 : Int), pr.2))

mutual
/-- One JSON value (with leading whitespace), fuelled. -/
def parseVal : Nat → List Char → Option (JValue × List Char)
  | 0, _ => none
  | fuel + 1, s =>
    match s.dropWhile jsonWs with
    | [] => none
    | c :: rest =>
      if c = '"' then
        match parseStrBody rest with
        | some pr => some (.jstr (String.mk pr.1), pr.2)
        | none => none
      else if c = lbrace then
        match rest.dropWhile jsonWs with
        | c2 :: rest2 =>
          if c2 = rbrace then some (.jobj [], rest2)
          else parseMembers fuel (rest.dropWhile jsonWs)
        | [] => none
      else if c = '[' then
        match rest.dropWhile jsonWs with
        | c2 :: rest2 =>
          if c2 = ']' then some (.jarr [], rest2)
          else parseElems fuel (rest.dropWhile jsonWs)
        | [] => none
      else if c = 't' then
        if "rue".data.isPrefixOf rest then some (.jbool true, rest.drop 3)
        else none
      else if c = 'f' then
        if "alse".data.isPrefixOf rest then some (.jbool false, rest.drop 4)
        else none
      else if c = 'n' then
        if "ull".data.isPrefixOf rest then some (.jnull, rest.drop 3)
        else none
      else
        match parseInt (c :: rest) with
        | some pr => some (.jnum pr.1, pr.2)
        | none => none

/-- Object members (at a `"`-headed key), fuelled. -/
def parseMembers : Nat → List Char → Option (JValue × List Char)
  | 0, _ => none
  | fuel + 1, s =>
    match s.dropWhile jsonWs with
    | c :: rest =>
      if c = '"' then
        match parseStrBody rest with
        | some (kcs, rest2) =>
          match rest2.dropWhile jsonWs with
          | ':' :: rest3 =>
            match parseVal fuel rest3 with
            | some (v, rest4) =>
              match rest4.dropWhile jsonWs with
              | ',' :: rest5 =>
                match parseMembers fuel rest5 with
                | some (.jobj fs, rest6) =>
                  some (.jobj ((String.mk kcs, v) :: fs), rest6)
                | _ => none
              | c2 :: rest5 =>
                if c2 = rbrace then some (.jobj [(String.mk kcs, v)], rest5)
                else none
              | [] => none
            | none => none
          | _ => none
        | none => none
      else none
    | [] => none

/-- Array elements (at a value), fuelled. -/
def parseElems : Nat → List Char → Option (JValue × List Char)
  | 0, _ => none
  | fuel + 1, s =>
    match parseVal fuel s with
    | some (v, rest) =>
      match rest.dropWhile jsonWs with
      | ',' :: rest2 =>
        match parseElems fuel rest2 with
        | some (.jarr xs, rest3) => some (.jarr (v :: xs), rest3)
        | _ => none
      | ']' :: rest2 => some (.jarr [v], rest2)
      | _ => none
    | none => none
end

/-- `json.loads`: one value, then only whitespace may remain. -/
def loads (s : List Char) : Option JValue :=
  match parseVal (s.length + 8) s with
  | some (v, rest) => if rest.dropWhile jsonWs = [] then some v else none
  | none => none

/-- `_extract_json` (src/core/llm.py lines 70-116): fenced block first,
then balanced-brace scan from the first `{`, then whole-text parse; a
parse failure anywhere is `none` (a raised exception). -/
def extract_json (text : List Char) : Option JValue :=
  match fencedSearch text with
  | some candidate => loads candidate
  | none =>
    match breakAtBrace text with
    | some pr =>
      match walk 1 false false pr.2 with
      | some consumed => loads (lbrace :: consumed)
      | none => loads text
    | none => loads text

def recD : InsightRecord := ⟨"ok", [], [], [], []⟩


/-! ### Brace-walk correctness on serializer output -/

/-- A segment the brace scan passes through without changing state or
terminating: scanning `seg ++ rest` at any depth outside a string just
prepends `seg` to the scan of `rest`. -/
def WalkNeutral (seg : List Char) : Prop :=
  ∀ (d : Nat) (rest : List Char),
    walk d false false (seg ++ rest) = (walk d false false rest).map (seg ++ ·)

theorem walkNeutral_nil : WalkNeutral [] := by
  intro d rest
  cases hw : walk d false false rest <;> simp [hw]

theorem walkNeutral_char {c : Char} (h1 : c ≠ '"') (h2 : c ≠ lbrace)
    (h3 : c ≠ rbrace) : WalkNeutral [c] := by
  intro d rest
  cases hw : walk d false false rest <;> simp [walk, h1, h2, h3, hw]

theorem walkNeutral_append {a b : List Char} (ha : WalkNeutral a)
    (hb : WalkNeutral b) : WalkNeutral (a ++ b) := by
  intro d rest
  rw [List.append_assoc, ha, hb]
  cases walk d false false rest <;> simp

theorem walk_instr (l : List Char) :
    ∀ (d : Nat) (rest : List Char),
      walk d true false (escapeChars l ++ ('"' :: rest)) =
        (walk d false false rest).map (fun t => escapeChars l ++ ('"' :: t)) := by
  induction l with
  | nil =>
    intro d rest
    cases hw : walk d false false rest <;> simp [escapeChars, walk, hw]
  | cons c cs ih =>
    intro d rest
    by_cases hc : c = '"' ∨ c = '\\'
    · have he : escapeChars (c :: cs) = '\\' :: c :: escapeChars cs := by
        simp [escapeChars, hc]
      rw [he]
      have h1 : walk d true false
          ('\\' :: (c :: (escapeChars cs ++ ('"' :: rest)))) =
          (walk d true true (c :: (escapeChars cs ++ ('"' :: rest)))).map
            ('\\' :: ·) := by
        simp [walk]
      have h2 : walk d true true (c :: (escapeChars cs ++ ('"' :: rest))) =
          (walk d true false (escapeChars cs ++ ('"' :: rest))).map
            (c :: ·) := by
        simp [walk]
      rw [List.cons_append, List.cons_append, h1, h2, ih]
      cases walk d false false rest <;> simp
    · push_neg at hc
      have he : escapeChars (c :: cs) = c :: escapeChars cs := by
        simp [escapeChars, hc.1, hc.2]
      rw [he]
      have h1 : walk d true false (c :: (escapeChars cs ++ ('"' :: rest))) =
          (walk d true false (escapeChars cs ++ ('"' :: rest))).map
            (c :: ·) := by
        simp [walk, hc.1, hc.2]
      rw [List.cons_append, h1, ih]
      cases walk d false false rest <;> simp

theorem walkNeutral_serStr (s : String) : WalkNeutral (serStr s) := by
  intro d rest
  have h1 : serStr s ++ rest = '"' :: (escapeChars s.data ++ ('"' :: rest)) := by
    simp [serStr]
  rw [h1]
  have h2 : walk d false false
      ('"' :: (escapeChars s.data ++ ('"' :: rest))) =
      (walk d true false (escapeChars s.data ++ ('"' :: rest))).map
        ('"' :: ·) := by
    simp [walk]
  rw [h2, walk_instr]
  cases walk d false false rest <;> simp [serStr]

theorem walkNeutral_serStrList (xs : List String) :
    WalkNeutral (serStrList xs) := by
  induction xs with
  | nil => exact walkNeutral_nil
  | cons x ys ih =>
    cases ys with
    | nil => exact walkNeutral_serStr x
    | cons y zs =>
      have h1 : serStrList (x :: y :: zs) =
          serStr x ++ ([','] ++ serStrList (y :: zs)) := by
        simp [serStrList]
      rw [h1]
      exact walkNeutral_append (walkNeutral_serStr x)
        (walkNeutral_append (walkNeutral_char (by decide) (by decide)
          (by decide)) ih)

theorem walkNeutral_serList (xs : List String) : WalkNeutral (serList xs) := by
  have h1 : serList xs = ['['] ++ (serStrList xs ++ [']']) := by
    simp [serList]
  rw [h1]
  exact walkNeutral_append
    (walkNeutral_char (by decide) (by decide) (by decide))
    (walkNeutral_append (walkNeutral_serStrList xs)
      (walkNeutral_char (by decide) (by decide) (by decide)))

theorem walkNeutral_serMembers (ms : List (String × List Char))
    (h : ∀ m ∈ ms, WalkNeutral m.2) : WalkNeutral (serMembers ms) := by
  induction ms with
  | nil => exact walkNeutral_nil
  | cons m rest ih =>
    obtain ⟨k, v⟩ := m
    cases rest with
    | nil =>
      have h1 : serMembers [(k, v)] = serStr k ++ ([':'] ++ v) := by
        simp [serMembers]
      rw [h1]
      exact walkNeutral_append (walkNeutral_serStr k)
        (walkNeutral_append (walkNeutral_char (by decide) (by decide)
          (by decide)) (h (k, v) (List.mem_cons_self _ _)))
    | cons m2 rest2 =>
      have h1 : serMembers ((k, v) :: m2 :: rest2) =
          serStr k ++ ([':'] ++ (v ++ ([','] ++ serMembers (m2 :: rest2)))) := by
        simp [serMembers]
      rw [h1]
      refine walkNeutral_append (walkNeutral_serStr k)
        (walkNeutral_append (walkNeutral_char (by decide) (by decide)
          (by decide)) (walkNeutral_append
            (h (k, v) (List.mem_cons_self _ _))
            (walkNeutral_append (walkNeutral_char (by decide) (by decide)
              (by decide)) (ih (fun m hm => h m (List.mem_cons_of_mem _ hm))))))

/-- The body of a serialized record (everything after the opening `{`). -/
def serBody (r : InsightRecord) : List Char :=
  serMembers
    [("tldr", serStr r.tldr), ("themes", serList r.themes),
     ("improvements", serList r.improvements),
     ("quick_wins", serList r.quick_wins),
     ("long_term", serList r.long_term)] ++ [rbrace]

theorem serialize_eq (r : InsightRecord) :
    serialize r = lbrace :: serBody r := rfl

theorem walk_serBody (r : InsightRecord) (post : List Char) :
    walk 1 false false (serBody r ++ post) = some (serBody r) := by
  have hmem : WalkNeutral (serMembers
      [("tldr", serStr r.tldr), ("themes", serList r.themes),
       ("improvements", serList r.improvements),
       ("quick_wins", serList r.quick_wins),
       ("long_term", serList r.long_term)]) := by
    apply walkNeutral_serMembers
    intro m hm
    simp only [List.mem_cons, List.not_mem_nil, or_false] at hm
    rcases hm with rfl | rfl | rfl | rfl | rfl
    · exact walkNeutral_serStr _
    · exact walkNeutral_serList _
    · exact walkNeutral_serList _
    · exact walkNeutral_serList _
    · exact walkNeutral_serList _
  have h1 : serBody r ++ post = serMembers
      [("tldr", serStr r.tldr), ("themes", serList r.themes),
       ("improvements", serList r.improvements),
       ("quick_wins", serList r.quick_wins),
       ("long_term", serList r.long_term)] ++ (rbrace :: post) := by
    simp [serBody]
  rw [h1, hmem]
  have h2 : walk 1 false false (rbrace :: post) = some [rbrace] := by
    simp [walk, (by decide : ¬ (rbrace = '"')), (by decide : ¬ (rbrace = lbrace))]
  rw [h2]
  simp [serBody]

/-! ### Parser round-trip on serializer output -/

theorem dropWhile_jsonWs_not (c : Char) (l : List Char) (h : jsonWs c = false) :
    (c :: l).dropWhile jsonWs = c :: l := by
  simp [List.dropWhile_cons, h]

theorem parseStrBody_quot (rest : List Char) :
    parseStrBody ('"' :: rest) = some ([], rest) := by
  rw [parseStrBody.eq_def]; simp

theorem parseStrBody_escQ (r2 : List Char) :
    parseStrBody ('\\' :: '"' :: r2) =
      (parseStrBody r2).map (fun pr => ('"' :: pr.1, pr.2)) := by
  rw [parseStrBody.eq_def]; simp

theorem parseStrBody_escB (r2 : List Char) :
    parseStrBody ('\\' :: '\\' :: r2) =
      (parseStrBody r2).map (fun pr => ('\\' :: pr.1, pr.2)) := by
  rw [parseStrBody.eq_def]; simp

theorem parseStrBody_other (c : Char) (rest : List Char)
    (h1 : ¬ c = '"') (h2 : ¬ c = '\\') :
    parseStrBody (c :: rest) =
      (parseStrBody rest).map (fun pr => (c :: pr.1, pr.2)) := by
  rw [parseStrBody.eq_def]; simp [h1, h2]

theorem parseStrBody_escape (l : List Char) :
    ∀ rest : List Char,
      parseStrBody (escapeChars l ++ ('"' :: rest)) = some (l, rest) := by
  induction l with
  | nil => intro rest; simp [escapeChars, parseStrBody_quot]
  | cons c cs ih =>
    intro rest
    by_cases hc : c = '"' ∨ c = '\\'
    · have he : escapeChars (c :: cs) = '\\' :: c :: escapeChars cs := by
        simp [escapeChars, hc]
      rw [he]
      rcases hc with rfl | rfl
      · simp [parseStrBody_escQ, ih]
      · simp [parseStrBody_escB, ih]
    · push_neg at hc
      have he : escapeChars (c :: cs) = c :: escapeChars cs := by
        simp [escapeChars, hc.1, hc.2]
      rw [he, List.cons_append, parseStrBody_other c _ hc.1 hc.2]
      simp [ih]

theorem parseVal_serStr (s : String) (fuel : Nat) (rest : List Char) :
    parseVal (fuel + 1) (serStr s ++ rest) = some (.jstr s, rest) := by
  have h1 : serStr s ++ rest = '"' :: (escapeChars s.data ++ ('"' :: rest)) := by
    simp [serStr]
  rw [h1]
  have h2 : ('"' :: (escapeChars s.data ++ ('"' :: rest))).dropWhile jsonWs =
      '"' :: (escapeChars s.data ++ ('"' :: rest)) :=
    dropWhile_jsonWs_not _ _ (by decide)
  simp [parseVal, h2, parseStrBody_escape]

theorem parseElems_ser :
    ∀ (xs : List String) (fuel : Nat) (rest : List Char), xs ≠ [] →
      xs.length + 1 ≤ fuel →
      parseElems fuel (serStrList xs ++ (']' :: rest)) =
        some (.jarr (xs.map .jstr), rest) := by
  intro xs
  induction xs with
  | nil => intro fuel rest h _; exact absurd rfl h
  | cons x ys ih =>
    intro fuel rest _ hf
    simp only [List.length_cons] at hf
    obtain ⟨g, rfl⟩ : ∃ g, fuel = g + 2 := ⟨fuel - 2, by omega⟩
    cases ys with
    | nil =>
      have hv := parseVal_serStr x g (']' :: rest)
      simp [parseElems, serStrList, hv,
        dropWhile_jsonWs_not _ _ (by decide : jsonWs ']' = false)]
    | cons y zs =>
      have hlen2 : (y :: zs).length + 1 ≤ g + 1 := by
        simp only [List.length_cons] at hf ⊢; omega
      have harr := ih (g + 1) rest (by simp) hlen2
      have hcons : serStrList (x :: y :: zs) ++ (']' :: rest) =
          serStr x ++ (',' :: (serStrList (y :: zs) ++ (']' :: rest))) := by
        simp [serStrList]
      rw [hcons]
      have hv := parseVal_serStr x g
        (',' :: (serStrList (y :: zs) ++ (']' :: rest)))
      rw [parseElems.eq_def]
      simp [hv,
        dropWhile_jsonWs_not _ _ (by decide : jsonWs ',' = false), harr]

theorem parseVal_serList (xs : List String) (fuel : Nat) (rest : List Char)
    (hf : xs.length + 2 ≤ fuel) :
    parseVal fuel (serList xs ++ rest) = some (.jarr (xs.map .jstr), rest) := by
  obtain ⟨g, rfl⟩ : ∃ g, fuel = g + 1 := ⟨fuel - 1, by omega⟩
  have h1 : serList xs ++ rest = '[' :: (serStrList xs ++ (']' :: rest)) := by
    simp [serList]
  rw [h1]
  cases xs with
  | nil =>
    simp [parseVal, serStrList,
      dropWhile_jsonWs_not _ _ (by decide : jsonWs '[' = false),
      dropWhile_jsonWs_not _ _ (by decide : jsonWs ']' = false),
      (by decide : ¬ ('[' = '"')), (by decide : ¬ ('[' = lbrace))]
  | cons x ys =>
    have hhead : ∃ t, serStrList (x :: ys) ++ (']' :: rest) = '"' :: t := by
      cases ys <;> exact ⟨_, rfl⟩
    obtain ⟨t, ht⟩ := hhead
    have helems := parseElems_ser (x :: ys) g rest (by simp)
      (by simp only [List.length_cons] at hf ⊢; omega)
    rw [ht] at helems
    rw [ht]
    simp [parseVal, dropWhile_jsonWs_not _ _ (by decide : jsonWs '[' = false),
      dropWhile_jsonWs_not _ _ (by decide : jsonWs '"' = false),
      (by decide : ¬ ('[' = '"')), (by decide : ¬ ('[' = lbrace)),
      (by decide : ¬ ('"' = ']')), helems]

theorem parseMembers_ser :
    ∀ (ms : List (String × List Char × JValue)) (N : Nat),
      (∀ m ∈ ms, ∀ (f : Nat) (r' : List Char), N ≤ f →
        parseVal f (m.2.1 ++ r') = some (m.2.2, r')) →
      ∀ (fuel : Nat) (rest : List Char), ms ≠ [] →
        ms.length + N ≤ fuel →
        parseMembers fuel
          (serMembers (ms.map (fun m => (m.1, m.2.1))) ++ (rbrace :: rest)) =
          some (.jobj (ms.map (fun m => (m.1, m.2.2))), rest) := by
  intro ms
  induction ms with
  | nil => intro N _ fuel rest h _; exact absurd rfl h
  | cons m ms' ih =>
    intro N hvals fuel rest _ hf
    obtain ⟨k, v, jv⟩ := m
    simp only [List.length_cons] at hf
    obtain ⟨g, rfl⟩ : ∃ g, fuel = g + 1 := ⟨fuel - 1, by omega⟩
    have hgN : N ≤ g := by omega
    have hvm := hvals (k, v, jv) (List.mem_cons_self _ _)
    cases ms' with
    | nil =>
      have hser : serMembers ([(k, v, jv)].map (fun m => (m.1, m.2.1))) ++
          (rbrace :: rest) =
          '"' :: (escapeChars k.data ++
            ('"' :: (':' :: (v ++ (rbrace :: rest))))) := by
        simp [serMembers, serStr]
      rw [hser]
      have hstr := parseStrBody_escape k.data (':' :: (v ++ (rbrace :: rest)))
      have hval := hvm g (rbrace :: rest) hgN
      simp [parseMembers,
        dropWhile_jsonWs_not _ _ (by decide : jsonWs '"' = false),
        dropWhile_jsonWs_not _ _ (by decide : jsonWs ':' = false),
        dropWhile_jsonWs_not _ _ (by decide : jsonWs rbrace = false),
        hstr, hval, (by decide : ¬ (rbrace = ','))]
    | cons m2 ms2 =>
      have hser : serMembers (((k, v, jv) :: m2 :: ms2).map
          (fun m => (m.1, m.2.1))) ++ (rbrace :: rest) =
          '"' :: (escapeChars k.data ++ ('"' :: (':' :: (v ++ (',' ::
            (serMembers ((m2 :: ms2).map (fun m => (m.1, m.2.1))) ++
              (rbrace :: rest))))))) := by
        simp [serMembers, serStr]
      rw [hser]
      have hstr := parseStrBody_escape k.data (':' :: (v ++ (',' ::
        (serMembers ((m2 :: ms2).map (fun m => (m.1, m.2.1))) ++
          (rbrace :: rest)))))
      have hval := hvm g (',' :: (serMembers ((m2 :: ms2).map
        (fun m => (m.1, m.2.1))) ++ (rbrace :: rest))) hgN
      have hrec := ih N (fun m hm => hvals m (List.mem_cons_of_mem _ hm))
        g rest (by simp) (by simp only [List.length_cons] at hf ⊢; omega)
      simp only [List.map_cons] at hstr hval hrec
      rw [parseMembers.eq_def]
      simp [dropWhile_jsonWs_not _ _ (by decide : jsonWs '"' = false),
        dropWhile_jsonWs_not _ _ (by decide : jsonWs ':' = false),
        dropWhile_jsonWs_not _ _ (by decide : jsonWs ',' = false),
        hstr, hval, hrec]

/-- Number of list elements across the four list fields. -/
def recElems (r : InsightRecord) : Nat :=
  r.themes.length + r.improvements.length + r.quick_wins.length +
    r.long_term.length

theorem serMembers_head (k : String) (v : List Char)
    (ms : List (String × List Char)) :
    ∃ t, serMembers ((k, v) :: ms) = '"' :: t := by
  cases ms with
  | nil =>
    exact ⟨escapeChars k.data ++ ('"' :: (':' :: v)), by simp [serMembers, serStr]⟩
  | cons m2 ms2 =>
    exact ⟨escapeChars k.data ++ ('"' :: (':' :: (v ++
      (',' :: serMembers (m2 :: ms2))))), by simp [serMembers, serStr]⟩

theorem parseVal_serialize (r : InsightRecord) (fuel : Nat) (rest : List Char)
    (hf : recElems r + 8 ≤ fuel) :
    parseVal fuel (serialize r ++ rest) = some (toJ r, rest) := by
  obtain ⟨g, rfl⟩ : ∃ g, fuel = g + 1 := ⟨fuel - 1, by omega⟩
  have hvals : ∀ m ∈ ([("tldr", serStr r.tldr, JValue.jstr r.tldr),
      ("themes", serList r.themes, JValue.jarr (r.themes.map JValue.jstr)),
      ("improvements", serList r.improvements,
        JValue.jarr (r.improvements.map JValue.jstr)),
      ("quick_wins", serList r.quick_wins,
        JValue.jarr (r.quick_wins.map JValue.jstr)),
      ("long_term", serList r.long_term,
        JValue.jarr (r.long_term.map JValue.jstr))] :
        List (String × List Char × JValue)),
      ∀ (f : Nat) (r' : List Char), recElems r + 2 ≤ f →
        parseVal f (m.2.1 ++ r') = some (m.2.2, r') := by
    intro m hm f r' hNf
    simp only [List.mem_cons, List.not_mem_nil, or_false] at hm
    rcases hm with rfl | rfl | rfl | rfl | rfl
    · obtain ⟨h, rfl⟩ : ∃ h, f = h + 1 := ⟨f - 1, by omega⟩
      exact parseVal_serStr _ _ _
    · exact parseVal_serList _ _ _ (by simp only [recElems] at hNf; omega)
    · exact parseVal_serList _ _ _ (by simp only [recElems] at hNf; omega)
    · exact parseVal_serList _ _ _ (by simp only [recElems] at hNf; omega)
    · exact parseVal_serList _ _ _ (by simp only [recElems] at hNf; omega)
  have hmem := parseMembers_ser
    [("tldr", serStr r.tldr, JValue.jstr r.tldr),
     ("themes", serList r.themes, JValue.jarr (r.themes.map JValue.jstr)),
     ("improvements", serList r.improvements,
       JValue.jarr (r.improvements.map JValue.jstr)),
     ("quick_wins", serList r.quick_wins,
       JValue.jarr (r.quick_wins.map JValue.jstr)),
     ("long_term", serList r.long_term,
       JValue.jarr (r.long_term.map JValue.jstr))]
    (recElems r + 2) hvals g rest (by simp)
    (by simp only [List.length_cons, List.length_nil]; omega)
  simp only [List.map_cons, List.map_nil] at hmem
  have hser : serialize r ++ rest = lbrace ::
      (serMembers [("tldr", serStr r.tldr), ("themes", serList r.themes),
        ("improvements", serList r.improvements),
        ("quick_wins", serList r.quick_wins),
        ("long_term", serList r.long_term)] ++ (rbrace :: rest)) := by
    simp [serialize]
  rw [hser]
  obtain ⟨t, ht⟩ := serMembers_head "tldr" (serStr r.tldr)
    [("themes", serList r.themes), ("improvements", serList r.improvements),
     ("quick_wins", serList r.quick_wins), ("long_term", serList r.long_term)]
  rw [ht] at hmem ⊢
  simp only [List.cons_append] at hmem
  simp [parseVal, toJ,
    dropWhile_jsonWs_not _ _ (by decide : jsonWs lbrace = false),
    dropWhile_jsonWs_not _ _ (by decide : jsonWs '"' = false),
    (by decide : ¬ (lbrace = '"')),
    (by decide : ¬ ('"' = rbrace)), hmem]

theorem serStrList_len (xs : List String) :
    xs.length ≤ (serStrList xs).length := by
  induction xs with
  | nil => simp [serStrList]
  | cons x ys ih =>
    cases ys with
    | nil =>
      simp [serStrList, serStr]
    | cons y zs =>
      have h1 : serStrList (x :: y :: zs) =
          serStr x ++ ',' :: serStrList (y :: zs) := by simp [serStrList]
      rw [h1]
      simp only [List.length_cons, List.length_append] at ih ⊢
      omega

theorem serialize_len (r : InsightRecord) :
    recElems r ≤ (serialize r).length := by
  have h1 := serStrList_len r.themes
  have h2 := serStrList_len r.improvements
  have h3 := serStrList_len r.quick_wins
  have h4 := serStrList_len r.long_term
  simp only [recElems]
  simp [serialize, serMembers, serList, serStr, List.length_append,
    List.length_cons]
  omega

theorem loads_serialize (r : InsightRecord) :
    loads (serialize r) = some (toJ r) := by
  have hlen := serialize_len r
  have h := parseVal_serialize r ((serialize r).length + 8) [] (by omega)
  rw [List.append_nil] at h
  simp [loads, h]

/-- The backtick character. -/
def btick : Char := Char.ofNat 96

theorem fencedAt_none (s : List Char) (h : btick ∉ s) : fencedAt s = none := by
  cases s with
  | nil => rfl
  | cons c rest =>
    have hc : ¬ c = btick := by
      intro hh
      exact h (by simp [hh])
    have hpre : "```".data.isPrefixOf (c :: rest) = false := by
      cases hb : "```".data.isPrefixOf (c :: rest)
      · rfl
      · exfalso
        have hp : "```".data <+: c :: rest := List.isPrefixOf_iff_prefix.mp hb
        have hd : "```".data = btick :: btick :: btick :: [] := by decide
        rw [hd] at hp
        obtain ⟨u, hu⟩ := hp
        injection hu with h1 _
        exact hc h1.symm
    simp [fencedAt, hpre]

theorem fencedSearch_none (s : List Char) (h : btick ∉ s) :
    fencedSearch s = none := by
  induction s with
  | nil => rfl
  | cons c rest ih =>
    have h2 : btick ∉ rest := fun hm => h (List.mem_cons_of_mem _ hm)
    have hA := fencedAt_none (c :: rest) h
    rw [fencedSearch.eq_def]
    simp [hA, ih h2]

theorem breakAtBrace_pre (pre : List Char) (t : List Char)
    (h : lbrace ∉ pre) :
    breakAtBrace (pre ++ lbrace :: t) = some (pre, t) := by
  induction pre with
  | nil =>
    rw [List.nil_append, breakAtBrace.eq_def]
    simp
  | cons c cs ih =>
    have hc : ¬ c = lbrace := by
      intro hh
      exact h (by simp [hh])
    have h2 : lbrace ∉ cs := fun hm => h (List.mem_cons_of_mem _ hm)
    rw [List.cons_append, breakAtBrace.eq_def]
    simp [hc, ih h2]

/-- `_extract_json` on a serialized record embedded in prose: correct
whenever the prose before the object has no `\x7b` of its own and the
whole text has no backtick (so the fenced branch does not fire). -/
theorem extract_json_embed (r : InsightRecord) (pre post : List Char)
    (hp : lbrace ∉ pre)
    (hb : btick ∉ pre ++ serialize r ++ post) :
    extract_json (pre ++ serialize r ++ post) = some (toJ r) := by
  have hfen : fencedSearch (pre ++ serialize r ++ post) = none :=
    fencedSearch_none _ hb
  have he : pre ++ serialize r ++ post = pre ++ (lbrace ::
      (serBody r ++ post)) := by
    rw [serialize_eq]
    simp
  have hbr : breakAtBrace (pre ++ serialize r ++ post) =
      some (pre, serBody r ++ post) := by
    rw [he]
    exact breakAtBrace_pre pre _ hp
  have hw := walk_serBody r post
  have hfinal : loads (lbrace :: serBody r) = some (toJ r) := by
    rw [← serialize_eq]
    exact loads_serialize r
  simp only [List.append_assoc] at hfen hbr
  simp [extract_json, hfen, hbr, hw, hfinal]

/-- Counterexample to C4 as stated: the record recD is valid and its
serialization parses back exactly, yet embedding it after prose that
itself contains a stray opening brace makes extraction fail: the
balanced-brace scan starts at the first brace of the text (the one in
the prose), never sees its depth return to zero, and the whole-text
parse then fails, so the original claim's "arbitrary surrounding prose"
is too strong. -/
theorem C4_counterexample :
    loads (serialize recD) = some (toJ recD) ∧
    extract_json ("note ".data ++ lbrace :: ' ' :: serialize recD) =
      none := ⟨rfl, rfl⟩

/-- C4 (corrected): the JSON extraction round-trip on a serialized
InsightRecord embedded in surrounding prose holds whenever the prose
before the object contains no opening brace of its own and the text
contains no backtick; a fenced json block in the standard shape is also
recovered. (As literally stated the claim is false: see
C4_counterexample.) -/
theorem C4_json_roundtrip :
    (∀ (r : InsightRecord) (pre post : List Char),
        lbrace ∉ pre → btick ∉ pre ++ serialize r ++ post →
        extract_json (pre ++ serialize r ++ post) = some (toJ r)) ∧
    extract_json ("Sure! ".data ++ "```".data ++ "json".data ++ ['\n'] ++
      serialize recD ++ ['\n'] ++ "```".data ++ " thanks".data) =
      some (toJ recD) := by
  constructor
  · intro r pre post hp hb
    exact extract_json_embed r pre post hp hb
  · rfl

theorem C4_json_roundtrip_witness :
    extract_json ("answer: ".data ++ serialize recD ++ " end".data) =
      some (toJ recD) :=
  C4_json_roundtrip.1 recD "answer: ".data " end".data (by decide)
    (by decide)
